import Mathlib

/-!
Verification of `colossalai/kernel/triton/context_attn_unpad.py`.

The file embeds the Triton kernel `_fwd_context_paged_attention_kernel` and its
host wrapper `context_attention_unpadded` as pure Lean functions over exact real
arithmetic, and proves the specified properties of the embedding.

Modelling conventions:
* Packed tensors are total functions from (token, head, dim) indices to `ℝ`;
  only in-shape indices are meaningful, and boundary-checked loads of the
  source are embedded as explicit range tests with zero padding.
* The float value `-inf` is embedded as `⊥` of `WithBot ℝ`, with
  `exp (-∞ - finite) = 0` as in IEEE arithmetic (`expW`, `subW`).
* One grid unit is one kernel program instance; the whole launch is a fold of
  the per-unit state transformer over the list of grid coordinates.
-/

set_option maxHeartbeats 1000000

open scoped BigOperators

namespace ContextAttn

/-- Ceiling division, as in `triton.cdiv(x, y) = (x + y - 1) // y`. -/
def cdiv (x y : ℕ) : ℕ := (x + y - 1) / y

/-- Models `triton.next_power_of_2`: the smallest power of two greater than or
equal to `n` (its documented contract), with `nextPow2 0 = 0` exactly as the
bit-twiddling implementation yields on input `0`. -/
def nextPow2 (n : ℕ) : ℕ := if n = 0 then 0 else 2 ^ Nat.clog 2 n

/-- Host-side arguments of `context_attention_unpadded`: tensor shape metadata
(as checked by the asserts on lines 200-220) plus tensor contents. -/
structure Args where
  numTokensQ : ℕ
  numTokensK : ℕ
  numTokensV : ℕ
  numHeads : ℕ
  numKvHeads : ℕ
  headDimQ : ℕ
  headDimK : ℕ
  headDimV : ℕ
  Q : ℕ → ℕ → ℕ → ℝ
  K : ℕ → ℕ → ℕ → ℝ
  V : ℕ → ℕ → ℕ → ℝ
  kCacheShape : ℕ × ℕ × ℕ × ℕ
  vCacheShape : ℕ × ℕ × ℕ × ℕ
  KC : ℕ → ℕ → ℕ → ℕ → ℝ
  VC : ℕ → ℕ → ℕ → ℕ → ℝ
  ctxLens : List ℕ
  btRows : ℕ
  btCols : ℕ
  blockTables : ℕ → ℕ → ℕ
  blockSize : ℕ
  maxSeqLenHint : Option ℕ

/-- The sequence count `num_seqs`, taken from `block_tables.shape[0]` (line 212). -/
def numSeqs (a : Args) : ℕ := a.btRows

/-- The precondition contract: conjunction of the asserts on lines 200-220. -/
def checks (a : Args) : Prop :=
  (a.headDimQ = a.headDimK ∧ a.headDimK = a.headDimV) ∧
  a.headDimK ∈ [32, 64, 128, 256] ∧
  (a.numTokensQ = a.numTokensK ∧ a.numTokensK = a.numTokensV) ∧
  a.kCacheShape = a.vCacheShape ∧
  a.ctxLens.length = a.btRows ∧
  (0 < a.numKvHeads ∧ a.numHeads % a.numKvHeads = 0) ∧
  a.blockSize ∈ [16, 32, 64, 128]

instance checksDecidable (a : Args) : Decidable (checks a) := by
  unfold checks; infer_instance

/-- Parameters handed to the kernel by the launch on lines 227-261. -/
structure KParams where
  B : ℕ
  D : ℕ
  kvGroups : ℕ
  batchSize : ℕ
  ctxLens : List ℕ
  Q : ℕ → ℕ → ℕ → ℝ
  K : ℕ → ℕ → ℕ → ℝ
  V : ℕ → ℕ → ℕ → ℝ
  blockTables : ℕ → ℕ → ℕ
  smScale : ℝ

/-- The current sequence length `cur_seq_len` (line 64). -/
def seqLen (kp : KParams) (s : ℕ) : ℕ := kp.ctxLens.getD s 0

/-- The in-kernel prefix sum `prev_seq_len_sum` over context lengths
(lines 70-72): start offset of sequence `s` in the packed buffers. -/
def seqStart (kp : KParams) (s : ℕ) : ℕ := (kp.ctxLens.take s).sum

/-- Dot product over the head dimension. -/
def dotD (D : ℕ) (x y : ℕ → ℝ) : ℝ := ∑ d ∈ Finset.range D, x d * y d

/-- Query row at in-sequence position `p`, as read through the boundary-checked
block pointer (line 127): rows at or beyond the sequence length read as zero. -/
def qRow (kp : KParams) (s h p : ℕ) (d : ℕ) : ℝ :=
  if p < seqLen kp s then kp.Q (seqStart kp s + p) h d else 0

/-- Key vector at in-sequence position `q`, boundary-checked (line 132). -/
def kCol (kp : KParams) (s kvh q : ℕ) (d : ℕ) : ℝ :=
  if q < seqLen kp s then kp.K (seqStart kp s + q) kvh d else 0

/-- Value vector at in-sequence position `q`, boundary-checked (line 146). -/
def vRow (kp : KParams) (s kvh q : ℕ) (d : ℕ) : ℝ :=
  if q < seqLen kp s then kp.V (seqStart kp s + q) kvh d else 0

/-- Scaled raw score of query position `p` against key position `q`
(lines 133-135): `sm_scale * ⟨Q_p, K_q⟩`. -/
def score (kp : KParams) (s h p q : ℕ) : ℝ :=
  kp.smScale * dotD kp.D (qRow kp s h p) (kCol kp s (h / kp.kvGroups) q)

/-- Score after the causal mask of line 136: `-∞` (that is, `⊥`) where the key
position exceeds the query position. -/
def maskedScore (kp : KParams) (s h p q : ℕ) : WithBot ℝ :=
  if q ≤ p then ((score kp s h p q : ℝ) : WithBot ℝ) else ⊥

/-- IEEE-style exponential on `ℝ ∪ {-∞}`: `exp (-∞) = 0`. -/
noncomputable def expW (x : WithBot ℝ) : ℝ := WithBot.recBotCoe 0 Real.exp x

/-- Subtraction on `ℝ ∪ {-∞}`. In every reachable state of the fold the
subtrahend (the new running maximum) is finite, so only the two cases
`finite - finite` and `-∞ - finite = -∞` are ever exercised. -/
def subW (x y : WithBot ℝ) : WithBot ℝ :=
  WithBot.recBotCoe ⊥
    (fun a => WithBot.recBotCoe ⊥ (fun b => ((a - b : ℝ) : WithBot ℝ)) y) x

/-- Per-row running state of the online-softmax fold: running row max `m_i`,
running normalization sum `l_i`, weighted value accumulator `acc`
(lines 120-122). -/
structure RowState where
  mi : WithBot ℝ
  li : ℝ
  acc : ℕ → ℝ

/-- Initial row state: `m_i = -∞`, `l_i = 0`, `acc = 0`. -/
def initRow : RowState := ⟨⊥, 0, fun _ => 0⟩

/-- One iteration of the key-tile loop (lines 129-153) restricted to the single
query row at in-sequence position `p`; `n` is the key-tile index, so
`block_start_n = n * B`. Every matrix operation of the source (row max, row
sum, accumulator update, rescale) acts independently on each query row, so the
row-restricted step is exact. -/
noncomputable def rowStep (kp : KParams) (s h p : ℕ) (st : RowState) (n : ℕ) : RowState :=
  let tMax : WithBot ℝ := (Finset.range kp.B).sup fun j => maskedScore kp s h p (n * kp.B + j)
  let mNew : WithBot ℝ := max st.mi tMax
  let scale : ℝ := expW (subW st.mi mNew)
  let pHat : ℕ → ℝ := fun j => expW (subW (maskedScore kp s h p (n * kp.B + j)) mNew)
  { mi := mNew
    li := scale * st.li + ∑ j ∈ Finset.range kp.B, pHat j
    acc := fun d =>
      scale * st.acc d +
        ∑ j ∈ Finset.range kp.B, pHat j * vRow kp s (h / kp.kvGroups) (n * kp.B + j) d }

/-- The kernel's fold over key tiles `0..m` (the loop bound on line 129 is
`(block_start_m + 1) * BLOCK_M`) for the query row at position `p`. -/
noncomputable def rowFold (kp : KParams) (s h m p : ℕ) : RowState :=
  (List.range (m + 1)).foldl (rowStep kp s h p) initRow

/-- Final output row `acc / l_i` (line 155). -/
noncomputable def outRow (kp : KParams) (s h m p : ℕ) (d : ℕ) : ℝ :=
  (rowFold kp s h m p).acc d / (rowFold kp s h m p).li

/-- Mutable state of one launch: output tensor (token, head, dim) and the two
paged caches (block, kv head, dim, slot). -/
structure GState where
  O : ℕ → ℕ → ℕ → ℝ
  KC : ℕ → ℕ → ℕ → ℕ → ℝ
  VC : ℕ → ℕ → ℕ → ℕ → ℝ

/-- Grid unit `u = (sequence, query head, query tile)` writes output cell
`(t, h, d)`: the unit passes both early-return guards (lines 53, 124) and the
cell lies in the boundary-checked store region of line 156. -/
def writesOut (kp : KParams) (u : ℕ × ℕ × ℕ) (t h d : ℕ) : Prop :=
  u.1 < kp.batchSize ∧ u.2.2 * kp.B < seqLen kp u.1 ∧ h = u.2.1 ∧ d < kp.D ∧
  seqStart kp u.1 + u.2.2 * kp.B ≤ t ∧
  t < seqStart kp u.1 + min ((u.2.2 + 1) * kp.B) (seqLen kp u.1)

/-- Grid unit `u` writes cache cell `(block, kv head, dim, slot)`; the
condition (guards, group-representative test of line 158, destination
resolution of lines 110-116, store masks of lines 171 and 184) is identical
for the key cache and the value cache. -/
def writesCache (kp : KParams) (u : ℕ × ℕ × ℕ) (b kvh d j : ℕ) : Prop :=
  u.1 < kp.batchSize ∧ u.2.2 * kp.B < seqLen kp u.1 ∧ u.2.1 % kp.kvGroups = 0 ∧
  b = kp.blockTables u.1 u.2.2 ∧ kvh = u.2.1 / kp.kvGroups ∧ d < kp.D ∧
  j < kp.B ∧ j < seqLen kp u.1 - u.2.2 * kp.B

instance writesOutDecidable (kp : KParams) (u : ℕ × ℕ × ℕ) (t h d : ℕ) :
    Decidable (writesOut kp u t h d) := by
  unfold writesOut; infer_instance

instance writesCacheDecidable (kp : KParams) (u : ℕ × ℕ × ℕ) (b kvh d j : ℕ) :
    Decidable (writesCache kp u b kvh d j) := by
  unfold writesCache; infer_instance

/-- One kernel program instance at grid coordinate `u = (seq, head, tile)`.
A unit failing its guards writes nothing; otherwise it stores its output tile
(line 156) and, when `head % KV_GROUPS = 0`, copies the tile's key and value
vectors into cache block `block_tables[seq][tile]` (lines 158-184). The store
masks guarantee that every stored cache slot `j` satisfies
`tile * B + j < seq_len`, where the masked load of lines 163 and 176 returns
the genuine packed `K`/`V` entry. -/
noncomputable def unitStep (kp : KParams) (st : GState) (u : ℕ × ℕ × ℕ) : GState :=
  { O := fun t h d =>
      if writesOut kp u t h d then outRow kp u.1 u.2.1 u.2.2 (t - seqStart kp u.1) d
      else st.O t h d
    KC := fun b kvh d j =>
      if writesCache kp u b kvh d j then kp.K (seqStart kp u.1 + u.2.2 * kp.B + j) kvh d
      else st.KC b kvh d j
    VC := fun b kvh d j =>
      if writesCache kp u b kvh d j then kp.V (seqStart kp u.1 + u.2.2 * kp.B + j) kvh d
      else st.VC b kvh d j }

/-- All grid coordinates of a three-dimensional launch grid. -/
def gridList (g1 g2 g3 : ℕ) : List (ℕ × ℕ × ℕ) :=
  (List.range g1).flatMap fun s =>
    (List.range g2).flatMap fun h => (List.range g3).map fun m => (s, h, m)

/-- Execution of the whole launch: each grid unit applied once. Units write
pairwise disjoint locations (proved below), so any execution order yields this
same result; we fix the lexicographic order of `gridList`. -/
noncomputable def runUnits (kp : KParams) (l : List (ℕ × ℕ × ℕ)) (st : GState) : GState :=
  l.foldl (unitStep kp) st

/-- Kernel parameters as materialized by the wrapper: `KV_GROUPS =
num_heads // num_kv_heads` (line 210), `sm_scale = 1 / Lq ** 0.5` (line 214),
`HEAD_DIM = Lk`, `batch_size = num_seqs`. -/
noncomputable def toKParams (a : Args) : KParams :=
  { B := a.blockSize
    D := a.headDimK
    kvGroups := a.numHeads / a.numKvHeads
    batchSize := a.btRows
    ctxLens := a.ctxLens
    Q := a.Q
    K := a.K
    V := a.V
    blockTables := a.blockTables
    smScale := (Real.sqrt (a.headDimQ : ℝ))⁻¹ }

/-- Line 213: the maximum sequence length is the caller hint when supplied,
else `context_lengths.max().item()`, which raises on an empty tensor. -/
def maxSeqLenOf (hint : Option ℕ) (ls : List ℕ) : Option ℕ :=
  match hint with
  | some L => some L
  | none => if ls.isEmpty then none else some (ls.foldr max 0)

/-- The launch grid of line 225:
`(next_power_of_2 num_seqs, num_heads, cdiv max_seq_len BLOCK_M)`. -/
def gridOf (a : Args) (maxL : ℕ) : ℕ × ℕ × ℕ :=
  (nextPow2 (numSeqs a), a.numHeads, cdiv maxL a.blockSize)

/-- State before the launch: output fresh zero tensor (line 216), caches as
supplied by the caller. -/
def initState (a : Args) : GState := ⟨fun _ _ _ => 0, a.KC, a.VC⟩

/-- The launch itself, for a resolved maximum sequence length. -/
noncomputable def runContext (a : Args) (maxL : ℕ) : GState :=
  runUnits (toKParams a)
    (gridList (gridOf a maxL).1 (gridOf a maxL).2.1 (gridOf a maxL).2.2)
    (initState a)

/-- The host entry point `context_attention_unpadded` (lines 189-263): check
the precondition contract, resolve the maximum sequence length, launch.
`none` models a raised exception before any kernel work is dispatched. -/
noncomputable def context_attention_unpadded (a : Args) : Option GState :=
  if checks a then (maxSeqLenOf a.maxSeqLenHint a.ctxLens).map (runContext a) else none

/-! ### Dense causal softmax reference -/

/-- Maximum of the raw scores over key positions `q ≤ c`. -/
noncomputable def visMax (kp : KParams) (s h p c : ℕ) : ℝ :=
  (Finset.range (c + 1)).sup' Finset.nonempty_range_succ (score kp s h p)

/-- The true row maximum `max_{q ≤ p} s_q` of the dense causal score row. -/
noncomputable def denseMax (kp : KParams) (s h p : ℕ) : ℝ := visMax kp s h p p

/-- Dense softmax denominator `Σ_{q ≤ p} exp (s_q - max)`. -/
noncomputable def denseDenom (kp : KParams) (s h p : ℕ) : ℝ :=
  ∑ q ∈ Finset.range (p + 1), Real.exp (score kp s h p q - denseMax kp s h p)

/-- Dense softmax numerator `Σ_{q ≤ p} exp (s_q - max) · V_q`, per dimension. -/
noncomputable def denseNumer (kp : KParams) (s h p d : ℕ) : ℝ :=
  ∑ q ∈ Finset.range (p + 1),
    Real.exp (score kp s h p q - denseMax kp s h p) * vRow kp s (h / kp.kvGroups) q d

/-- Dense causal softmax attention in its textbook (unshifted) form: row-wise
softmax of the visible raw scores, weighted sum of value vectors. -/
noncomputable def denseAttn (kp : KParams) (s h p d : ℕ) : ℝ :=
  (∑ q ∈ Finset.range (p + 1),
      Real.exp (score kp s h p q) * vRow kp s (h / kp.kvGroups) q d) /
    ∑ q ∈ Finset.range (p + 1), Real.exp (score kp s h p q)

/-! ### Concrete configuration used by witnesses -/

/-- A minimal well-formed invocation: one sequence of one token, one head,
head dimension 32, block size 16. -/
noncomputable def exA : Args :=
  { numTokensQ := 1
    numTokensK := 1
    numTokensV := 1
    numHeads := 1
    numKvHeads := 1
    headDimQ := 32
    headDimK := 32
    headDimV := 32
    Q := fun _ _ _ => 0
    K := fun _ _ _ => 0
    V := fun _ _ _ => 0
    kCacheShape := (4, 1, 32, 16)
    vCacheShape := (4, 1, 32, 16)
    KC := fun _ _ _ _ => 0
    VC := fun _ _ _ _ => 0
    ctxLens := [1]
    btRows := 1
    btCols := 1
    blockTables := fun _ _ => 0
    blockSize := 16
    maxSeqLenHint := some 1 }

/-- The precondition contract as the claim words it: identical to the asserts
except that it demands the query head count be a positive exact multiple of
the kv-head count, i.e. positive and divisible. -/
def specPre (a : Args) : Prop :=
  (a.headDimQ = a.headDimK ∧ a.headDimK = a.headDimV) ∧
  a.headDimK ∈ [32, 64, 128, 256] ∧
  (a.numTokensQ = a.numTokensK ∧ a.numTokensK = a.numTokensV) ∧
  a.kCacheShape = a.vCacheShape ∧
  a.ctxLens.length = a.btRows ∧
  (0 < a.numHeads ∧ a.numKvHeads ∣ a.numHeads) ∧
  a.blockSize ∈ [16, 32, 64, 128]

instance specPreDecidable (a : Args) : Decidable (specPre a) := by
  unfold specPre; infer_instance

/-- A well-formed invocation except that the query head count is zero: the
asserts accept it (`0 % 1 == 0`), yet zero is not a positive multiple of 1. -/
noncomputable def exBad : Args := { exA with numHeads := 0 }

/-- Hypothetical write-per-head cache-write condition: identical to
`writesCache` except that the group-representative test of line 158
(`head % KV_GROUPS == 0`) is dropped, so every sibling head would write. -/
def writesCacheAll (kp : KParams) (u : ℕ × ℕ × ℕ) (b kvh d j : ℕ) : Prop :=
  u.1 < kp.batchSize ∧ u.2.2 * kp.B < seqLen kp u.1 ∧
  b = kp.blockTables u.1 u.2.2 ∧ kvh = u.2.1 / kp.kvGroups ∧ d < kp.D ∧
  j < kp.B ∧ j < seqLen kp u.1 - u.2.2 * kp.B

instance writesCacheAllDecidable (kp : KParams) (u : ℕ × ℕ × ℕ) (b kvh d j : ℕ) :
    Decidable (writesCacheAll kp u b kvh d j) := by
  unfold writesCacheAll; infer_instance

/-- The hypothetical write-per-head unit: as `unitStep`, but with the cache
write performed by every head of the group. -/
noncomputable def unitStepAll (kp : KParams) (st : GState) (u : ℕ × ℕ × ℕ) : GState :=
  { O := fun t h d =>
      if writesOut kp u t h d then outRow kp u.1 u.2.1 u.2.2 (t - seqStart kp u.1) d
      else st.O t h d
    KC := fun b kvh d j =>
      if writesCacheAll kp u b kvh d j then kp.K (seqStart kp u.1 + u.2.2 * kp.B + j) kvh d
      else st.KC b kvh d j
    VC := fun b kvh d j =>
      if writesCacheAll kp u b kvh d j then kp.V (seqStart kp u.1 + u.2.2 * kp.B + j) kvh d
      else st.VC b kvh d j }

/-- The configuration `exA` with a deliberately too-small hint of 0. -/
noncomputable def exAHint0 : Args := { exA with maxSeqLenHint := some 0 }

/-- A two-token sequence configuration for the causality witness. -/
noncomputable def exC : Args :=
  { exA with numTokensQ := 2, numTokensK := 2, numTokensV := 2, ctxLens := [2] }

/-- An alteration of the (all-zero) token vectors at packed position 1 only —
the token strictly after query position 0 of sequence 0 in `exC`. -/
noncomputable def exCalt : ℕ → ℕ → ℕ → ℝ := fun t _ _ => if t = 1 then 5 else 0

/-! ### Basic lemmas about the embedding -/

theorem mem_gridList {g1 g2 g3 : ℕ} {u : ℕ × ℕ × ℕ} :
    u ∈ gridList g1 g2 g3 ↔ u.1 < g1 ∧ u.2.1 < g2 ∧ u.2.2 < g3 := by
  obtain ⟨s, h, m⟩ := u
  simp only [gridList, List.mem_flatMap, List.mem_map, List.mem_range, Prod.mk.injEq]
  constructor
  · rintro ⟨s', hs', h', hh', m', hm', rfl, rfl, rfl⟩
    exact ⟨hs', hh', hm'⟩
  · rintro ⟨hs, hh, hm⟩
    exact ⟨s, hs, h, hh, m, hm, rfl, rfl, rfl⟩

@[simp] theorem expW_bot : expW ⊥ = 0 := rfl

@[simp] theorem expW_coe (x : ℝ) : expW ((x : ℝ) : WithBot ℝ) = Real.exp x := rfl

@[simp] theorem subW_bot_left (y : WithBot ℝ) : subW ⊥ y = ⊥ := rfl

@[simp] theorem subW_coe_coe (x y : ℝ) :
    subW ((x : ℝ) : WithBot ℝ) ((y : ℝ) : WithBot ℝ) = ((x - y : ℝ) : WithBot ℝ) := rfl

theorem seqStart_succ (kp : KParams) (s : ℕ) (hs : s < kp.ctxLens.length) :
    seqStart kp (s + 1) = seqStart kp s + seqLen kp s := by
  unfold seqStart seqLen
  rw [List.sum_take_succ _ _ hs, List.getD_eq_getElem _ _ hs]

theorem take_sum_mono (l : List ℕ) {s s' : ℕ} (h : s ≤ s') :
    (l.take s).sum ≤ (l.take s').sum := by
  induction l generalizing s s' with
  | nil => simp
  | cons a l ih =>
    cases s with
    | zero => simp
    | succ s =>
      cases s' with
      | zero => omega
      | succ s' =>
        simp only [List.take_succ_cons, List.sum_cons]
        exact Nat.add_le_add_left (ih (Nat.succ_le_succ_iff.mp h)) a

theorem seqStart_mono (kp : KParams) {s s' : ℕ} (h : s ≤ s') :
    seqStart kp s ≤ seqStart kp s' := take_sum_mono kp.ctxLens h

/-- Token spans of distinct sequences are disjoint: a token of sequence `s`
comes strictly before every token of a later sequence `s'`. -/
theorem span_lt (kp : KParams) {s s' p : ℕ} (hss : s < s')
    (hs : s < kp.ctxLens.length) (hp : p < seqLen kp s) :
    seqStart kp s + p < seqStart kp s' := by
  have h1 : seqStart kp s + p < seqStart kp (s + 1) := by
    rw [seqStart_succ kp s hs]; omega
  exact lt_of_lt_of_le h1 (seqStart_mono kp hss)

theorem span_ne (kp : KParams) {s s' p p' : ℕ} (hne : s ≠ s')
    (hs : s < kp.ctxLens.length) (hs' : s' < kp.ctxLens.length)
    (hp : p < seqLen kp s) (hp' : p' < seqLen kp s') :
    seqStart kp s + p ≠ seqStart kp s' + p' := by
  rcases Nat.lt_or_ge s s' with h1 | h1
  · have := span_lt kp h1 hs hp
    omega
  · have h2 : s' < s := by omega
    have := span_lt kp h2 hs' hp'
    omega

theorem le_nextPow2 (n : ℕ) : n ≤ nextPow2 n := by
  unfold nextPow2
  split
  · omega
  · exact Nat.le_pow_clog (by norm_num) n

theorem nextPow2_isPow (n : ℕ) (h : 0 < n) : ∃ k, nextPow2 n = 2 ^ k := by
  unfold nextPow2
  rw [if_neg (by omega)]
  exact ⟨Nat.clog 2 n, rfl⟩

theorem nextPow2_min (n k : ℕ) (h : n ≤ 2 ^ k) : nextPow2 n ≤ 2 ^ k := by
  unfold nextPow2
  split
  · omega
  · exact Nat.pow_le_pow_right (by norm_num)
      ((Nat.le_pow_iff_clog_le (by norm_num)).mp h)

theorem div_lt_cdiv {p L B : ℕ} (hB : 0 < B) (h : p < L) : p / B < cdiv L B := by
  unfold cdiv
  have h1 : L + B - 1 = (L - 1) + B := by omega
  rw [h1, Nat.add_div_right _ hB]
  exact Nat.lt_succ_of_le (Nat.div_le_div_right (by omega))

theorem le_cdiv_mul (L B : ℕ) (hB : 0 < B) : L ≤ cdiv L B * B := by
  rcases Nat.eq_zero_or_pos L with h | h
  · omega
  · unfold cdiv
    have h1 : L + B - 1 = (L - 1) + B := by omega
    rw [h1, Nat.add_div_right _ hB, Nat.succ_mul]
    have h2 := Nat.div_add_mod (L - 1) B
    have h3 : (L - 1) % B < B := Nat.mod_lt _ hB
    have h4 : (L - 1) / B * B = B * ((L - 1) / B) := Nat.mul_comm _ _
    omega

/-! ### Frame and unique-writer lemmas for the grid fold -/

theorem runUnits_O_frame (kp : KParams) (l : List (ℕ × ℕ × ℕ)) (st : GState)
    (t h d : ℕ) (hnone : ∀ u ∈ l, ¬ writesOut kp u t h d) :
    (runUnits kp l st).O t h d = st.O t h d := by
  induction l generalizing st with
  | nil => rfl
  | cons a l ih =>
    show (runUnits kp l (unitStep kp st a)).O t h d = st.O t h d
    rw [ih (unitStep kp st a) (fun u hu => hnone u (List.mem_cons_of_mem a hu))]
    show (if writesOut kp a t h d then _ else st.O t h d) = st.O t h d
    rw [if_neg (hnone a (List.mem_cons_self a l))]

theorem runUnits_KC_frame (kp : KParams) (l : List (ℕ × ℕ × ℕ)) (st : GState)
    (b kvh d j : ℕ) (hnone : ∀ u ∈ l, ¬ writesCache kp u b kvh d j) :
    (runUnits kp l st).KC b kvh d j = st.KC b kvh d j := by
  induction l generalizing st with
  | nil => rfl
  | cons a l ih =>
    show (runUnits kp l (unitStep kp st a)).KC b kvh d j = st.KC b kvh d j
    rw [ih (unitStep kp st a) (fun u hu => hnone u (List.mem_cons_of_mem a hu))]
    show (if writesCache kp a b kvh d j then _ else st.KC b kvh d j) = st.KC b kvh d j
    rw [if_neg (hnone a (List.mem_cons_self a l))]

theorem runUnits_VC_frame (kp : KParams) (l : List (ℕ × ℕ × ℕ)) (st : GState)
    (b kvh d j : ℕ) (hnone : ∀ u ∈ l, ¬ writesCache kp u b kvh d j) :
    (runUnits kp l st).VC b kvh d j = st.VC b kvh d j := by
  induction l generalizing st with
  | nil => rfl
  | cons a l ih =>
    show (runUnits kp l (unitStep kp st a)).VC b kvh d j = st.VC b kvh d j
    rw [ih (unitStep kp st a) (fun u hu => hnone u (List.mem_cons_of_mem a hu))]
    show (if writesCache kp a b kvh d j then _ else st.VC b kvh d j) = st.VC b kvh d j
    rw [if_neg (hnone a (List.mem_cons_self a l))]

theorem runUnits_O_unique (kp : KParams) (l : List (ℕ × ℕ × ℕ)) (st : GState)
    (t h d : ℕ) (u₀ : ℕ × ℕ × ℕ) (hmem : u₀ ∈ l) (hw : writesOut kp u₀ t h d)
    (huniq : ∀ u ∈ l, writesOut kp u t h d → u = u₀) :
    (runUnits kp l st).O t h d = outRow kp u₀.1 u₀.2.1 u₀.2.2 (t - seqStart kp u₀.1) d := by
  induction l generalizing st with
  | nil => cases hmem
  | cons a l ih =>
    show (runUnits kp l (unitStep kp st a)).O t h d = _
    by_cases hmem' : u₀ ∈ l
    · exact ih (unitStep kp st a) hmem' (fun u hu => huniq u (List.mem_cons_of_mem a hu))
    · have ha : a = u₀ := by
        rcases List.mem_cons.mp hmem with h1 | h1
        · exact h1.symm
        · exact absurd h1 hmem'
      subst ha
      rw [runUnits_O_frame kp l _ t h d
        (fun u hu hwu => hmem' (huniq u (List.mem_cons_of_mem a hu) hwu ▸ hu))]
      show (if writesOut kp a t h d then outRow kp a.1 a.2.1 a.2.2 (t - seqStart kp a.1) d
        else st.O t h d) = _
      rw [if_pos hw]

theorem runUnits_KC_unique (kp : KParams) (l : List (ℕ × ℕ × ℕ)) (st : GState)
    (b kvh d j : ℕ) (u₀ : ℕ × ℕ × ℕ) (hmem : u₀ ∈ l) (hw : writesCache kp u₀ b kvh d j)
    (huniq : ∀ u ∈ l, writesCache kp u b kvh d j → u = u₀) :
    (runUnits kp l st).KC b kvh d j = kp.K (seqStart kp u₀.1 + u₀.2.2 * kp.B + j) kvh d := by
  induction l generalizing st with
  | nil => cases hmem
  | cons a l ih =>
    show (runUnits kp l (unitStep kp st a)).KC b kvh d j = _
    by_cases hmem' : u₀ ∈ l
    · exact ih (unitStep kp st a) hmem' (fun u hu => huniq u (List.mem_cons_of_mem a hu))
    · have ha : a = u₀ := by
        rcases List.mem_cons.mp hmem with h1 | h1
        · exact h1.symm
        · exact absurd h1 hmem'
      subst ha
      rw [runUnits_KC_frame kp l _ b kvh d j
        (fun u hu hwu => hmem' (huniq u (List.mem_cons_of_mem a hu) hwu ▸ hu))]
      show (if writesCache kp a b kvh d j then _ else st.KC b kvh d j) = _
      rw [if_pos hw]

theorem runUnits_VC_unique (kp : KParams) (l : List (ℕ × ℕ × ℕ)) (st : GState)
    (b kvh d j : ℕ) (u₀ : ℕ × ℕ × ℕ) (hmem : u₀ ∈ l) (hw : writesCache kp u₀ b kvh d j)
    (huniq : ∀ u ∈ l, writesCache kp u b kvh d j → u = u₀) :
    (runUnits kp l st).VC b kvh d j = kp.V (seqStart kp u₀.1 + u₀.2.2 * kp.B + j) kvh d := by
  induction l generalizing st with
  | nil => cases hmem
  | cons a l ih =>
    show (runUnits kp l (unitStep kp st a)).VC b kvh d j = _
    by_cases hmem' : u₀ ∈ l
    · exact ih (unitStep kp st a) hmem' (fun u hu => huniq u (List.mem_cons_of_mem a hu))
    · have ha : a = u₀ := by
        rcases List.mem_cons.mp hmem with h1 | h1
        · exact h1.symm
        · exact absurd h1 hmem'
      subst ha
      rw [runUnits_VC_frame kp l _ b kvh d j
        (fun u hu hwu => hmem' (huniq u (List.mem_cons_of_mem a hu) hwu ▸ hu))]
      show (if writesCache kp a b kvh d j then _ else st.VC b kvh d j) = _
      rw [if_pos hw]


/-! ### The online-softmax invariant -/

theorem rowStep_mi (kp : KParams) (s h p : ℕ) (st : RowState) (n : ℕ) :
    (rowStep kp s h p st n).mi
      = max st.mi ((Finset.range kp.B).sup fun j => maskedScore kp s h p (n * kp.B + j)) :=
  rfl

theorem rowStep_li (kp : KParams) (s h p : ℕ) (st : RowState) (n : ℕ) :
    (rowStep kp s h p st n).li
      = expW (subW st.mi ((rowStep kp s h p st n).mi)) * st.li +
          ∑ j ∈ Finset.range kp.B,
            expW (subW (maskedScore kp s h p (n * kp.B + j)) ((rowStep kp s h p st n).mi)) :=
  rfl

theorem rowStep_acc (kp : KParams) (s h p : ℕ) (st : RowState) (n d : ℕ) :
    (rowStep kp s h p st n).acc d
      = expW (subW st.mi ((rowStep kp s h p st n).mi)) * st.acc d +
          ∑ j ∈ Finset.range kp.B,
            expW (subW (maskedScore kp s h p (n * kp.B + j)) ((rowStep kp s h p st n).mi)) *
              vRow kp s (h / kp.kvGroups) (n * kp.B + j) d :=
  rfl

/-- The running maximum as a `WithBot` supremum is the coercion of the real
maximum `visMax`. -/
theorem visMax_coe (kp : KParams) (s h p c : ℕ) :
    (Finset.range (c + 1)).sup (fun q => ((score kp s h p q : ℝ) : WithBot ℝ))
      = ((visMax kp s h p c : ℝ) : WithBot ℝ) :=
  (Finset.coe_sup' Finset.nonempty_range_succ _).symm

/-- The row maximum of one causally-masked key tile `n` (whose first column
`n·B` is visible because `n·B ≤ p`) equals the supremum of the raw scores over
the tile's visible columns `[n·B, min p (n·B + B - 1)]`. -/
theorem tileSup (kp : KParams) (s h p n : ℕ) (hB : 0 < kp.B) (hn : n * kp.B ≤ p) :
    ((Finset.range kp.B).sup fun j => maskedScore kp s h p (n * kp.B + j))
      = (Finset.Ico (n * kp.B) (min p (n * kp.B + kp.B - 1) + 1)).sup
          (fun q => ((score kp s h p q : ℝ) : WithBot ℝ)) := by
  apply le_antisymm
  · apply Finset.sup_le
    intro j hj
    rw [Finset.mem_range] at hj
    by_cases hle : n * kp.B + j ≤ p
    · have : maskedScore kp s h p (n * kp.B + j)
          = ((score kp s h p (n * kp.B + j) : ℝ) : WithBot ℝ) := by
        unfold maskedScore; rw [if_pos hle]
      rw [this]
      have hmem : n * kp.B + j
          ∈ Finset.Ico (n * kp.B) (min p (n * kp.B + kp.B - 1) + 1) :=
        Finset.mem_Ico.mpr ⟨by omega, by omega⟩
      exact @Finset.le_sup (WithBot ℝ) ℕ _ _
        (Finset.Ico (n * kp.B) (min p (n * kp.B + kp.B - 1) + 1))
        (fun q => ((score kp s h p q : ℝ) : WithBot ℝ)) (n * kp.B + j) hmem
    · have : maskedScore kp s h p (n * kp.B + j) = ⊥ := by
        unfold maskedScore; rw [if_neg hle]
      rw [this]
      exact bot_le
  · apply Finset.sup_le
    intro q hq
    rw [Finset.mem_Ico] at hq
    have hj : q - n * kp.B < kp.B := by omega
    have hval : maskedScore kp s h p (n * kp.B + (q - n * kp.B))
        = ((score kp s h p q : ℝ) : WithBot ℝ) := by
      have hq' : n * kp.B + (q - n * kp.B) = q := by omega
      rw [hq']
      unfold maskedScore
      rw [if_pos (by omega)]
    rw [← hval]
    have hmem : q - n * kp.B ∈ Finset.range kp.B := Finset.mem_range.mpr hj
    exact @Finset.le_sup (WithBot ℝ) ℕ _ _ (Finset.range kp.B)
      (fun j => maskedScore kp s h p (n * kp.B + j)) (q - n * kp.B) hmem

/-- One causally-masked key tile's weighted sum of shifted exponentials: masked
columns contribute `exp (-∞) = 0`, so the sum ranges over exactly the visible
columns of the tile. -/
theorem tileSum (kp : KParams) (s h p n : ℕ) (hB : 0 < kp.B) (hn : n * kp.B ≤ p)
    (M : ℝ) (w : ℕ → ℝ) :
    (∑ j ∈ Finset.range kp.B,
        expW (subW (maskedScore kp s h p (n * kp.B + j)) ((M : ℝ) : WithBot ℝ)) *
          w (n * kp.B + j))
      = ∑ q ∈ Finset.Ico (n * kp.B) (min p (n * kp.B + kp.B - 1) + 1),
          Real.exp (score kp s h p q - M) * w q := by
  have hterm : ∀ j : ℕ,
      expW (subW (maskedScore kp s h p (n * kp.B + j)) ((M : ℝ) : WithBot ℝ)) *
          w (n * kp.B + j)
        = if n * kp.B + j ≤ p
          then Real.exp (score kp s h p (n * kp.B + j) - M) * w (n * kp.B + j) else 0 := by
    intro j
    unfold maskedScore
    by_cases hc : n * kp.B + j ≤ p
    · rw [if_pos hc, if_pos hc, subW_coe_coe, expW_coe]
    · rw [if_neg hc, if_neg hc, subW_bot_left, expW_bot, zero_mul]
  simp only [hterm]
  rw [Finset.sum_Ico_eq_sum_range]
  have hsplit : Finset.range kp.B
      = Finset.range (min p (n * kp.B + kp.B - 1) + 1 - n * kp.B) ∪
          Finset.Ico (min p (n * kp.B + kp.B - 1) + 1 - n * kp.B) kp.B := by
    rw [Finset.range_eq_Ico, Finset.Ico_union_Ico_eq_Ico (by omega) (by omega)]
  rw [hsplit, Finset.sum_union (by
    rw [Finset.range_eq_Ico]
    exact Finset.Ico_disjoint_Ico_consecutive 0 _ kp.B)]
  have h1 : ∀ j ∈ Finset.range (min p (n * kp.B + kp.B - 1) + 1 - n * kp.B),
      (if n * kp.B + j ≤ p
        then Real.exp (score kp s h p (n * kp.B + j) - M) * w (n * kp.B + j) else 0)
        = Real.exp (score kp s h p (n * kp.B + j) - M) * w (n * kp.B + j) := by
    intro j hj
    rw [Finset.mem_range] at hj
    rw [if_pos (by omega)]
  have h2 : ∀ j ∈ Finset.Ico (min p (n * kp.B + kp.B - 1) + 1 - n * kp.B) kp.B,
      (if n * kp.B + j ≤ p
        then Real.exp (score kp s h p (n * kp.B + j) - M) * w (n * kp.B + j) else 0)
        = 0 := by
    intro j hj
    rw [Finset.mem_Ico] at hj
    rw [if_neg (by omega)]
  rw [Finset.sum_congr rfl h1, Finset.sum_congr rfl h2, Finset.sum_const_zero, add_zero]

theorem sup_range_union_Ico (f : ℕ → WithBot ℝ) (a b : ℕ) (hab : a ≤ b) :
    (Finset.range (b + 1)).sup f
      = (Finset.range (a + 1)).sup f ⊔ (Finset.Ico (a + 1) (b + 1)).sup f := by
  have hsplit : Finset.range (b + 1) = Finset.range (a + 1) ∪ Finset.Ico (a + 1) (b + 1) := by
    ext x
    simp only [Finset.mem_range, Finset.mem_union, Finset.mem_Ico]
    omega
  rw [hsplit, Finset.sup_union]

/-- One tile-fold step preserves the online-softmax invariant: if the state
holds the exact streaming statistics for visible key positions `0..e` and the
next tile `n` starts at column `e + 1 = n·B`, the stepped state holds them for
positions `0..min p (n·B + B - 1)`. -/
theorem rowStep_inv (kp : KParams) (s h p n e : ℕ) (hB : 0 < kp.B) (hn : n * kp.B ≤ p)
    (he : e + 1 = n * kp.B) (st : RowState)
    (hmi : st.mi = ((visMax kp s h p e : ℝ) : WithBot ℝ))
    (hli : st.li = ∑ q ∈ Finset.range (e + 1),
        Real.exp (score kp s h p q - visMax kp s h p e))
    (hacc : ∀ d, st.acc d = ∑ q ∈ Finset.range (e + 1),
        Real.exp (score kp s h p q - visMax kp s h p e) * vRow kp s (h / kp.kvGroups) q d) :
    (rowStep kp s h p st n).mi
        = ((visMax kp s h p (min p (n * kp.B + kp.B - 1)) : ℝ) : WithBot ℝ) ∧
    (rowStep kp s h p st n).li
        = (∑ q ∈ Finset.range (min p (n * kp.B + kp.B - 1) + 1),
            Real.exp (score kp s h p q - visMax kp s h p (min p (n * kp.B + kp.B - 1)))) ∧
    ∀ d, (rowStep kp s h p st n).acc d
        = ∑ q ∈ Finset.range (min p (n * kp.B + kp.B - 1) + 1),
            Real.exp (score kp s h p q - visMax kp s h p (min p (n * kp.B + kp.B - 1))) *
              vRow kp s (h / kp.kvGroups) q d := by
  have h1 : (rowStep kp s h p st n).mi
      = ((visMax kp s h p (min p (n * kp.B + kp.B - 1)) : ℝ) : WithBot ℝ) := by
    rw [rowStep_mi, hmi, tileSup kp s h p n hB hn,
      ← visMax_coe kp s h p e, ← visMax_coe kp s h p (min p (n * kp.B + kp.B - 1))]
    rw [sup_range_union_Ico (fun q => ((score kp s h p q : ℝ) : WithBot ℝ)) e
      (min p (n * kp.B + kp.B - 1)) (by omega), he, sup_eq_max]
  refine ⟨h1, ?_, ?_⟩
  · rw [rowStep_li, h1, hmi, hli, subW_coe_coe, expW_coe]
    have hts := tileSum kp s h p n hB hn (visMax kp s h p (min p (n * kp.B + kp.B - 1)))
      (fun _ => 1)
    simp only [mul_one] at hts
    rw [hts, Finset.mul_sum]
    have hcomb : ∀ q : ℕ,
        Real.exp (visMax kp s h p e - visMax kp s h p (min p (n * kp.B + kp.B - 1))) *
            Real.exp (score kp s h p q - visMax kp s h p e)
          = Real.exp (score kp s h p q - visMax kp s h p (min p (n * kp.B + kp.B - 1))) := by
      intro q
      rw [← Real.exp_add]
      congr 1
      ring
    simp only [hcomb]
    rw [Finset.range_eq_Ico, ← he,
      Finset.sum_Ico_consecutive _ (by omega) (by omega), ← Finset.range_eq_Ico]
  · intro d
    rw [rowStep_acc, h1, hmi, hacc d, subW_coe_coe, expW_coe]
    have hts := tileSum kp s h p n hB hn (visMax kp s h p (min p (n * kp.B + kp.B - 1)))
      (fun q => vRow kp s (h / kp.kvGroups) q d)
    rw [hts, Finset.mul_sum]
    have hcomb : ∀ q : ℕ,
        Real.exp (visMax kp s h p e - visMax kp s h p (min p (n * kp.B + kp.B - 1))) *
            (Real.exp (score kp s h p q - visMax kp s h p e) *
              vRow kp s (h / kp.kvGroups) q d)
          = Real.exp (score kp s h p q - visMax kp s h p (min p (n * kp.B + kp.B - 1))) *
              vRow kp s (h / kp.kvGroups) q d := by
      intro q
      rw [← mul_assoc, ← Real.exp_add]
      congr 2
      ring
    simp only [hcomb]
    rw [Finset.range_eq_Ico, ← he,
      Finset.sum_Ico_consecutive _ (by omega) (by omega), ← Finset.range_eq_Ico]

/-- The first tile-fold step, from the initial state `(-∞, 0, 0)`: the rescale
factor is `exp (-∞) = 0`, so the stepped state holds the exact streaming
statistics for the visible key positions `0..min p (B - 1)` of tile `0`. -/
theorem rowStep_init (kp : KParams) (s h p : ℕ) (hB : 0 < kp.B) :
    (rowStep kp s h p initRow 0).mi
        = ((visMax kp s h p (min p (kp.B - 1)) : ℝ) : WithBot ℝ) ∧
    (rowStep kp s h p initRow 0).li
        = (∑ q ∈ Finset.range (min p (kp.B - 1) + 1),
            Real.exp (score kp s h p q - visMax kp s h p (min p (kp.B - 1)))) ∧
    ∀ d, (rowStep kp s h p initRow 0).acc d
        = ∑ q ∈ Finset.range (min p (kp.B - 1) + 1),
            Real.exp (score kp s h p q - visMax kp s h p (min p (kp.B - 1))) *
              vRow kp s (h / kp.kvGroups) q d := by
  have h0 : (0 : ℕ) * kp.B ≤ p := by omega
  have h1 : (rowStep kp s h p initRow 0).mi
      = ((visMax kp s h p (min p (kp.B - 1)) : ℝ) : WithBot ℝ) := by
    rw [rowStep_mi, show initRow.mi = (⊥ : WithBot ℝ) from rfl,
      max_eq_right bot_le, tileSup kp s h p 0 hB h0]
    simp only [Nat.zero_mul, Nat.zero_add]
    rw [← Finset.range_eq_Ico, visMax_coe]
  refine ⟨h1, ?_, ?_⟩
  · rw [rowStep_li, h1, show initRow.mi = (⊥ : WithBot ℝ) from rfl,
      show initRow.li = (0 : ℝ) from rfl, subW_bot_left, expW_bot, zero_mul, zero_add]
    simp only [Nat.zero_mul, Nat.zero_add]
    have hts := tileSum kp s h p 0 hB h0 (visMax kp s h p (min p (kp.B - 1))) (fun _ => 1)
    simp only [mul_one, Nat.zero_mul, Nat.zero_add] at hts
    rw [hts, ← Finset.range_eq_Ico]
  · intro d
    rw [rowStep_acc, h1, show initRow.mi = (⊥ : WithBot ℝ) from rfl,
      show initRow.acc d = (0 : ℝ) from rfl, subW_bot_left, expW_bot, zero_mul, zero_add]
    simp only [Nat.zero_mul, Nat.zero_add]
    have hts := tileSum kp s h p 0 hB h0 (visMax kp s h p (min p (kp.B - 1)))
      (fun q => vRow kp s (h / kp.kvGroups) q d)
    simp only [Nat.zero_mul, Nat.zero_add] at hts
    rw [hts, ← Finset.range_eq_Ico]

/-- The online-softmax invariant, after folding key tiles `0..m`: the state
holds the exact streaming statistics of the dense causal softmax restricted to
key positions `0..min p ((m+1)·B - 1)`. -/
theorem rowFold_inv (kp : KParams) (s h p : ℕ) (hB : 0 < kp.B) (m : ℕ)
    (hm : m * kp.B ≤ p) :
    (rowFold kp s h m p).mi
        = ((visMax kp s h p (min p (m * kp.B + kp.B - 1)) : ℝ) : WithBot ℝ) ∧
    (rowFold kp s h m p).li
        = (∑ q ∈ Finset.range (min p (m * kp.B + kp.B - 1) + 1),
            Real.exp (score kp s h p q - visMax kp s h p (min p (m * kp.B + kp.B - 1)))) ∧
    ∀ d, (rowFold kp s h m p).acc d
        = ∑ q ∈ Finset.range (min p (m * kp.B + kp.B - 1) + 1),
            Real.exp (score kp s h p q - visMax kp s h p (min p (m * kp.B + kp.B - 1))) *
              vRow kp s (h / kp.kvGroups) q d := by
  induction m with
  | zero =>
    have hfold : rowFold kp s h 0 p = rowStep kp s h p initRow 0 := by
      unfold rowFold
      rw [List.range_succ, List.range_zero, List.nil_append, List.foldl_cons, List.foldl_nil]
    rw [hfold]
    simpa using rowStep_init kp s h p hB
  | succ m ih =>
    have hexp : (m + 1) * kp.B = m * kp.B + kp.B := by ring
    have hm' : m * kp.B ≤ p := by omega
    obtain ⟨ih1, ih2, ih3⟩ := ih hm'
    have heq : min p (m * kp.B + kp.B - 1) = (m + 1) * kp.B - 1 := by omega
    rw [heq] at ih1 ih2 ih3
    have hfold : rowFold kp s h (m + 1) p = rowStep kp s h p (rowFold kp s h m p) (m + 1) := by
      unfold rowFold
      rw [List.range_succ, List.foldl_append, List.foldl_cons, List.foldl_nil]
    have hpos : 0 < (m + 1) * kp.B := Nat.mul_pos (Nat.succ_pos m) hB
    have he : ((m + 1) * kp.B - 1) + 1 = (m + 1) * kp.B := by omega
    rw [hfold]
    exact rowStep_inv kp s h p (m + 1) ((m + 1) * kp.B - 1) hB hm he
      (rowFold kp s h m p) ih1 ih2 ih3

/-! ### Wrapper-level plumbing -/

@[simp] theorem toKParams_B (a : Args) : (toKParams a).B = a.blockSize := rfl

@[simp] theorem toKParams_D (a : Args) : (toKParams a).D = a.headDimK := rfl

@[simp] theorem toKParams_kvGroups (a : Args) :
    (toKParams a).kvGroups = a.numHeads / a.numKvHeads := rfl

@[simp] theorem toKParams_batchSize (a : Args) : (toKParams a).batchSize = a.btRows := rfl

@[simp] theorem toKParams_ctxLens (a : Args) : (toKParams a).ctxLens = a.ctxLens := rfl

@[simp] theorem toKParams_Q (a : Args) : (toKParams a).Q = a.Q := rfl

@[simp] theorem toKParams_K (a : Args) : (toKParams a).K = a.K := rfl

@[simp] theorem toKParams_V (a : Args) : (toKParams a).V = a.V := rfl

@[simp] theorem toKParams_blockTables (a : Args) :
    (toKParams a).blockTables = a.blockTables := rfl

@[simp] theorem toKParams_smScale (a : Args) :
    (toKParams a).smScale = (Real.sqrt (a.headDimQ : ℝ))⁻¹ := rfl

@[simp] theorem gridOf_1 (a : Args) (maxL : ℕ) :
    (gridOf a maxL).1 = nextPow2 (numSeqs a) := rfl

@[simp] theorem gridOf_21 (a : Args) (maxL : ℕ) : (gridOf a maxL).2.1 = a.numHeads := rfl

@[simp] theorem gridOf_22 (a : Args) (maxL : ℕ) :
    (gridOf a maxL).2.2 = cdiv maxL a.blockSize := rfl

theorem context_eq_some (a : Args) (maxL : ℕ) (hc : checks a)
    (hmax : maxSeqLenOf a.maxSeqLenHint a.ctxLens = some maxL) :
    context_attention_unpadded a = some (runContext a maxL) := by
  unfold context_attention_unpadded
  rw [if_pos hc, hmax]
  rfl

theorem lt_div_succ_mul (p B : ℕ) (hB : 0 < B) : p < (p / B + 1) * B := by
  have h1 := Nat.div_add_mod p B
  have h2 : p % B < B := Nat.mod_lt p hB
  have h3 : (p / B + 1) * B = B * (p / B) + B := by ring
  omega

/-- Two grid units that both write a given output cell are the same unit:
destination output regions are pairwise disjoint. -/
theorem writesOut_unique (kp : KParams) (hB : 0 < kp.B)
    (hbs : kp.batchSize ≤ kp.ctxLens.length)
    {u u' : ℕ × ℕ × ℕ} {t h d : ℕ}
    (hw : writesOut kp u t h d) (hw' : writesOut kp u' t h d) : u = u' := by
  obtain ⟨s, hh, m⟩ := u
  obtain ⟨s', hh', m'⟩ := u'
  unfold writesOut at hw hw'
  dsimp only at hw hw'
  obtain ⟨hs, hmB, hhead, hd, hlo, hhi⟩ := hw
  obtain ⟨hs', hmB', hhead', hd', hlo', hhi'⟩ := hw'
  have hseq : s = s' := by
    by_contra hne
    have hp : t - seqStart kp s < seqLen kp s := by omega
    have hp' : t - seqStart kp s' < seqLen kp s' := by omega
    have := span_ne kp hne (lt_of_lt_of_le hs hbs) (lt_of_lt_of_le hs' hbs) hp hp'
    omega
  subst hseq
  have hheads : hh = hh' := hhead.symm.trans hhead'
  subst hheads
  have htile : m = m' := by
    have e1 : (t - seqStart kp s) / kp.B = m :=
      Nat.div_eq_of_lt_le (by omega) (by omega)
    have e2 : (t - seqStart kp s) / kp.B = m' :=
      Nat.div_eq_of_lt_le (by omega) (by omega)
    omega
  subst htile
  rfl

/-- Output characterization: the cell of query position `p` of sequence `s` at
head `h` is written exactly once, by unit `(s, h, p / B)`, with the fold's
final `acc / l_i` row. -/
theorem runUnits_grid_O (kp : KParams) (g1 g2 g3 : ℕ) (st0 : GState)
    (hB : 0 < kp.B) (hbs : kp.batchSize ≤ kp.ctxLens.length)
    (s p h d : ℕ) (hs : s < kp.batchSize) (hsg : s < g1)
    (hp : p < seqLen kp s) (hh : h < g2) (hmg : p / kp.B < g3) (hd : d < kp.D) :
    (runUnits kp (gridList g1 g2 g3) st0).O (seqStart kp s + p) h d
      = outRow kp s h (p / kp.B) p d := by
  have hw : writesOut kp (s, h, p / kp.B) (seqStart kp s + p) h d := by
    unfold writesOut
    dsimp only
    refine ⟨hs, lt_of_le_of_lt (Nat.div_mul_le_self p kp.B) hp, rfl, hd, ?_, ?_⟩
    · have := Nat.div_mul_le_self p kp.B
      omega
    · have := lt_div_succ_mul p kp.B hB
      omega
  have hchar := runUnits_O_unique kp (gridList g1 g2 g3) st0 (seqStart kp s + p) h d
    (s, h, p / kp.B) (mem_gridList.mpr ⟨hsg, hh, hmg⟩) hw
    (fun u _ hwu => writesOut_unique kp hB hbs hwu hw)
  simpa using hchar

/-- The shifted softmax quotient equals the textbook (unshifted) softmax
attention row. -/
theorem denseAttn_shift (kp : KParams) (s h p d : ℕ) :
    denseNumer kp s h p d / denseDenom kp s h p = denseAttn kp s h p d := by
  unfold denseNumer denseDenom denseAttn
  have hfac : ∀ q : ℕ, Real.exp (score kp s h p q - denseMax kp s h p)
      = Real.exp (score kp s h p q) * Real.exp (-denseMax kp s h p) := by
    intro q
    rw [← Real.exp_add, sub_eq_add_neg]
  simp only [hfac]
  have h1 : (∑ q ∈ Finset.range (p + 1),
      Real.exp (score kp s h p q) * Real.exp (-denseMax kp s h p) *
        vRow kp s (h / kp.kvGroups) q d)
      = (∑ q ∈ Finset.range (p + 1),
          Real.exp (score kp s h p q) * vRow kp s (h / kp.kvGroups) q d) *
        Real.exp (-denseMax kp s h p) := by
    rw [Finset.sum_mul]
    exact Finset.sum_congr rfl fun q _ => by ring
  have h2 : (∑ q ∈ Finset.range (p + 1),
      Real.exp (score kp s h p q) * Real.exp (-denseMax kp s h p))
      = (∑ q ∈ Finset.range (p + 1), Real.exp (score kp s h p q)) *
        Real.exp (-denseMax kp s h p) := by
    rw [Finset.sum_mul]
  rw [h1, h2, mul_div_mul_right _ _ (Real.exp_ne_zero _)]


/-! ### Claim C1 -/

/-- C1: for every sequence `s`, query head `h` and query position
`p < length(s)`, the output row `context_attention_unpadded` stores at packed
token `seqStart s + p` equals dense causal softmax attention over that
sequence.  With raw scores `s_q = (1/√head_dim)·⟨Q_p, K_q⟩` for `q ≤ p`
(second conjunct), the fold's final running max is `max_{q≤p} s_q`, the final
`l_i` is the dense denominator `Σ_{q≤p} exp (s_q - max)`, the final `acc` is
the dense numerator `Σ_{q≤p} exp (s_q - max) · V_q`, the stored row is
`acc / l_i`, and it equals the textbook unshifted dense softmax attention row.
`maxL` is the resolved maximum sequence length (the default resolution is the
batch maximum, which bounds every `p`). -/
theorem C1_output_equals_dense_attention (a : Args) (maxL s h p : ℕ)
    (hc : checks a)
    (hmax : maxSeqLenOf a.maxSeqLenHint a.ctxLens = some maxL)
    (hs : s < numSeqs a) (hh : h < a.numHeads)
    (hp : p < seqLen (toKParams a) s) (hpL : p < maxL) :
    context_attention_unpadded a = some (runContext a maxL) ∧
    (∀ q, q ≤ p → score (toKParams a) s h p q
        = (Real.sqrt (a.headDimQ : ℝ))⁻¹ *
            ∑ d ∈ Finset.range a.headDimK,
              a.Q (seqStart (toKParams a) s + p) h d *
                a.K (seqStart (toKParams a) s + q) (h / (a.numHeads / a.numKvHeads)) d) ∧
    (rowFold (toKParams a) s h (p / a.blockSize) p).mi
        = ((denseMax (toKParams a) s h p : ℝ) : WithBot ℝ) ∧
    (rowFold (toKParams a) s h (p / a.blockSize) p).li = denseDenom (toKParams a) s h p ∧
    (∀ d, (rowFold (toKParams a) s h (p / a.blockSize) p).acc d
        = denseNumer (toKParams a) s h p d) ∧
    (∀ d, d < a.headDimK →
        (runContext a maxL).O (seqStart (toKParams a) s + p) h d
          = denseNumer (toKParams a) s h p d / denseDenom (toKParams a) s h p) ∧
    (∀ d, d < a.headDimK →
        (runContext a maxL).O (seqStart (toKParams a) s + p) h d
          = denseAttn (toKParams a) s h p d) := by
  have hc' := hc
  obtain ⟨hdims, hdmem, htok, hcache, hlen, hkv, hbsmem⟩ := hc'
  have hB : 0 < a.blockSize := by
    simp only [List.mem_cons, List.not_mem_nil, or_false] at hbsmem
    omega
  have hBk : 0 < (toKParams a).B := hB
  have hbs : (toKParams a).batchSize ≤ (toKParams a).ctxLens.length := by
    simp only [toKParams_batchSize, toKParams_ctxLens]
    omega
  have hwrap := context_eq_some a maxL hc hmax
  have hdiv1 : (p / a.blockSize) * (toKParams a).B ≤ p := Nat.div_mul_le_self p a.blockSize
  obtain ⟨hmi, hli, hacc⟩ := rowFold_inv (toKParams a) s h p hBk (p / a.blockSize) hdiv1
  simp only [toKParams_B] at hmi hli hacc
  have hminp : min p (p / a.blockSize * a.blockSize + a.blockSize - 1) = p := by
    have h2 := lt_div_succ_mul p a.blockSize hB
    have h3 : (p / a.blockSize + 1) * a.blockSize
        = p / a.blockSize * a.blockSize + a.blockSize := by ring
    omega
  rw [hminp] at hmi hli hacc
  have hscore : ∀ q, q ≤ p → score (toKParams a) s h p q
      = (Real.sqrt (a.headDimQ : ℝ))⁻¹ *
          ∑ d ∈ Finset.range a.headDimK,
            a.Q (seqStart (toKParams a) s + p) h d *
              a.K (seqStart (toKParams a) s + q) (h / (a.numHeads / a.numKvHeads)) d := by
    intro q hq
    have hq' : q < seqLen (toKParams a) s := lt_of_le_of_lt hq hp
    unfold score dotD
    simp only [toKParams_smScale, toKParams_D, toKParams_kvGroups]
    congr 1
    refine Finset.sum_congr rfl fun d _ => ?_
    unfold qRow kCol
    rw [if_pos hp, if_pos hq']
    simp only [toKParams_Q, toKParams_K, toKParams_kvGroups]
  have hO : ∀ d, d < a.headDimK →
      (runContext a maxL).O (seqStart (toKParams a) s + p) h d
        = denseNumer (toKParams a) s h p d / denseDenom (toKParams a) s h p := by
    intro d hd
    have hchar : (runContext a maxL).O (seqStart (toKParams a) s + p) h d
        = outRow (toKParams a) s h (p / (toKParams a).B) p d := by
      unfold runContext
      exact runUnits_grid_O (toKParams a) _ _ _ (initState a) hBk hbs s p h d hs
        (by simp only [gridOf_1]; exact lt_of_lt_of_le hs (le_nextPow2 _))
        hp
        (by simp only [gridOf_21]; exact hh)
        (by simp only [gridOf_22, toKParams_B]; exact div_lt_cdiv hB hpL)
        hd
    rw [hchar]
    unfold outRow
    simp only [toKParams_B]
    rw [hacc d, hli]
    unfold denseNumer denseDenom denseMax
    rfl
  exact ⟨hwrap, hscore,
    by unfold denseMax; exact hmi,
    by unfold denseDenom denseMax; exact hli,
    fun d => by unfold denseNumer denseMax; exact hacc d,
    hO,
    fun d hd => by rw [hO d hd, denseAttn_shift]⟩

/-- Witness for C1 at the concrete configuration `exA`, sequence 0, head 0,
query position 0, dimension 0. -/
theorem C1_output_equals_dense_attention_witness :
    (runContext exA 1).O (seqStart (toKParams exA) 0 + 0) 0 0
      = denseAttn (toKParams exA) 0 0 0 0 :=
  (C1_output_equals_dense_attention exA 1 0 0 0 (by decide) (by decide) (by decide)
    (by decide) (by decide) (by decide)).2.2.2.2.2.2 0 (by decide)

/-! ### Claim C6 -/

/-- C6: a grid unit whose sequence index is at least the batch size, or whose
query-tile starting position `m·B` is at least its sequence's length, is a
no-op: it leaves the output tensor and both caches exactly as they were. -/
theorem C6_skipped_units_are_noops (kp : KParams) (st : GState) (u : ℕ × ℕ × ℕ)
    (hskip : kp.batchSize ≤ u.1 ∨ seqLen kp u.1 ≤ u.2.2 * kp.B) :
    unitStep kp st u = st := by
  have hnoO : ∀ t h d, ¬ writesOut kp u t h d := by
    intro t h d hw
    unfold writesOut at hw
    obtain ⟨h1, h2, -⟩ := hw
    omega
  have hnoC : ∀ b kvh d j, ¬ writesCache kp u b kvh d j := by
    intro b kvh d j hw
    unfold writesCache at hw
    obtain ⟨h1, h2, -⟩ := hw
    omega
  cases st with
  | mk O KC VC =>
    unfold unitStep
    congr 1
    · funext t h d
      rw [if_neg (hnoO t h d)]
    · funext b kvh d j
      rw [if_neg (hnoC b kvh d j)]
    · funext b kvh d j
      rw [if_neg (hnoC b kvh d j)]

/-- Witness for C6: the out-of-batch unit `(1, 0, 0)` of the one-sequence
configuration `exA` changes nothing. -/
theorem C6_skipped_units_are_noops_witness :
    unitStep (toKParams exA) (initState exA) (1, 0, 0) = initState exA :=
  C6_skipped_units_are_noops (toKParams exA) (initState exA) (1, 0, 0)
    (Or.inl (by decide))

/-! ### Claim C9 -/

/-- C9: within one unit's fold over key tiles, the running row maximum is
non-decreasing: it starts at `-∞`, each step replaces it by
`max (m_i, tile_max)`, which is `≥ m_i`, and it is monotone along the fold. -/
theorem C9_running_max_monotone (kp : KParams) (s h p : ℕ) :
    initRow.mi = ⊥ ∧
    (∀ (st : RowState) (n : ℕ),
      (rowStep kp s h p st n).mi
          = max st.mi ((Finset.range kp.B).sup fun j => maskedScore kp s h p (n * kp.B + j)) ∧
      st.mi ≤ (rowStep kp s h p st n).mi) ∧
    ∀ m m', m ≤ m' → (rowFold kp s h m p).mi ≤ (rowFold kp s h m' p).mi := by
  refine ⟨rfl, fun st n => ⟨rowStep_mi kp s h p st n, ?_⟩, ?_⟩
  · rw [rowStep_mi]
    exact le_max_left _ _
  · intro m m' hmm
    induction m' with
    | zero =>
      have h0 : m = 0 := by omega
      subst h0
      exact le_refl _
    | succ m' ih =>
      rcases Nat.lt_or_ge m (m' + 1) with hlt | hge
      · have hunf : rowFold kp s h (m' + 1) p
            = rowStep kp s h p (rowFold kp s h m' p) (m' + 1) := by
          unfold rowFold
          rw [List.range_succ, List.foldl_append, List.foldl_cons, List.foldl_nil]
        have hstep : (rowFold kp s h m' p).mi ≤ (rowFold kp s h (m' + 1) p).mi := by
          rw [hunf, rowStep_mi]
          exact le_max_left _ _
        exact le_trans (ih (by omega)) hstep
      · have heq : m = m' + 1 := by omega
        subst heq
        exact le_refl _

/-- Witness for C9: monotonicity instantiated between tile folds 0 and 1. -/
theorem C9_running_max_monotone_witness :
    (rowFold (toKParams exA) 0 0 0 0).mi ≤ (rowFold (toKParams exA) 0 0 1 0).mi :=
  (C9_running_max_monotone (toKParams exA) 0 0 0).2.2 0 1 (by decide)

/-! ### Claim C8 -/

/-- C8: the launch grid is three-dimensional with sizes: the least power of
two at least the sequence count; the query head count; and
`⌈max_seq_len / BLOCK_M⌉` tile slots, where `max_seq_len` is the batch
maximum of the context lengths (or the caller hint when supplied). -/
theorem C8_grid_shape (a : Args) (maxL : ℕ)
    (hmax : maxSeqLenOf a.maxSeqLenHint a.ctxLens = some maxL)
    (hpos : 0 < numSeqs a) :
    (gridOf a maxL).2.1 = a.numHeads ∧
    (gridOf a maxL).2.2 = cdiv maxL a.blockSize ∧
    (∃ k, (gridOf a maxL).1 = 2 ^ k) ∧
    numSeqs a ≤ (gridOf a maxL).1 ∧
    (∀ k, numSeqs a ≤ 2 ^ k → (gridOf a maxL).1 ≤ 2 ^ k) ∧
    (a.maxSeqLenHint = none → a.ctxLens ≠ [] ∧ maxL = a.ctxLens.foldr max 0) ∧
    (∀ L, a.maxSeqLenHint = some L → maxL = L) := by
  refine ⟨rfl, rfl, nextPow2_isPow _ hpos, le_nextPow2 _, fun k hk => nextPow2_min _ k hk,
    ?_, ?_⟩
  · intro hnone
    rw [hnone] at hmax
    cases hl : a.ctxLens with
    | nil =>
      rw [hl] at hmax
      exact absurd hmax (by simp [maxSeqLenOf])
    | cons x xs =>
      rw [hl] at hmax
      have hmax' : some ((x :: xs).foldr max 0) = some maxL := hmax
      refine ⟨by simp [hl], ?_⟩
      exact (Option.some.inj hmax').symm
  · intro L hsome
    rw [hsome] at hmax
    have hLm : some L = some maxL := hmax
    exact (Option.some.inj hLm).symm

/-- Witness for C8 at `exA` with its hint `some 1`. -/
theorem C8_grid_shape_witness : numSeqs exA ≤ (gridOf exA 1).1 :=
  (C8_grid_shape exA 1 (by decide) (by decide)).2.2.2.1

/-! ### Claim C5 -/



/-- Counterexample to C5 as stated: with zero query heads and one kv head the
claimed precondition ("query head count is a positive exact multiple of the
kv-head count") is violated, yet `context_attention_unpadded` does not fail. -/
theorem C5_counterexample_not_iff :
    ¬ specPre exBad ∧ context_attention_unpadded exBad ≠ none := by
  constructor
  · decide
  · unfold context_attention_unpadded
    rw [if_pos (by decide : checks exBad)]
    have hred : maxSeqLenOf exBad.maxSeqLenHint exBad.ctxLens = some 1 := rfl
    rw [hred]
    simp

theorem maxSeqLenOf_eq_none_iff (hint : Option ℕ) (ls : List ℕ) :
    maxSeqLenOf hint ls = none ↔ hint = none ∧ ls = [] := by
  cases hint with
  | some L => simp [maxSeqLenOf]
  | none =>
    cases ls with
    | nil => simp [maxSeqLenOf]
    | cons x xs => simp [maxSeqLenOf]

/-- C5 (amended): the call fails if and only if one of the assert conditions
fails — with "positive exact multiple" weakened to "kv-head count positive
and query head count an exact multiple of it" — or the context-length array
is empty while no maximum-sequence-length hint is supplied (the batch-maximum
reduction of an empty tensor raises). All failures happen before any kernel
work is dispatched and mutate neither the output tensor nor the caches. -/
theorem C5_amended_reject_iff (a : Args) :
    context_attention_unpadded a = none ↔
      (¬ ((a.headDimQ = a.headDimK ∧ a.headDimK = a.headDimV) ∧
          a.headDimK ∈ [32, 64, 128, 256] ∧
          (a.numTokensQ = a.numTokensK ∧ a.numTokensK = a.numTokensV) ∧
          a.kCacheShape = a.vCacheShape ∧
          a.ctxLens.length = a.btRows ∧
          (0 < a.numKvHeads ∧ a.numHeads % a.numKvHeads = 0) ∧
          a.blockSize ∈ [16, 32, 64, 128]) ∨
        (a.maxSeqLenHint = none ∧ a.ctxLens = [])) := by
  by_cases hc : checks a
  · constructor
    · intro h0
      unfold context_attention_unpadded at h0
      rw [if_pos hc] at h0
      right
      cases hval : maxSeqLenOf a.maxSeqLenHint a.ctxLens with
      | none => exact (maxSeqLenOf_eq_none_iff _ _).mp hval
      | some L =>
        rw [hval] at h0
        exact absurd h0 (by simp)
    · intro hor
      rcases hor with hnc | ⟨h1, h2⟩
      · exact absurd hc hnc
      · unfold context_attention_unpadded
        rw [if_pos hc, h1, h2]
        rfl
  · constructor
    · intro _
      exact Or.inl hc
    · intro _
      unfold context_attention_unpadded
      rw [if_neg hc]

/-! ### Claim C7 -/

/-- C7: destination disjointness. Distinct grid units never write the same
output cell; and two distinct units that both perform a cache write target
distinct `(cache block, kv head)` destinations, under the precondition that
the block table assigns distinct physical blocks to distinct working
`(sequence, tile)` pairs. -/
theorem C7_destination_disjointness (kp : KParams) (hB : 0 < kp.B)
    (hbs : kp.batchSize ≤ kp.ctxLens.length)
    (hinj : ∀ s₁ i₁ s₂ i₂, s₁ < kp.batchSize → s₂ < kp.batchSize →
      i₁ * kp.B < seqLen kp s₁ → i₂ * kp.B < seqLen kp s₂ →
      kp.blockTables s₁ i₁ = kp.blockTables s₂ i₂ → s₁ = s₂ ∧ i₁ = i₂) :
    (∀ u u' t h d, u ≠ u' → ¬ (writesOut kp u t h d ∧ writesOut kp u' t h d)) ∧
    (∀ u u' b kvh d j b' kvh' d' j', u ≠ u' →
      writesCache kp u b kvh d j → writesCache kp u' b' kvh' d' j' →
      (b, kvh) ≠ (b', kvh')) := by
  constructor
  · rintro u u' t h d hne ⟨hw, hw'⟩
    exact hne (writesOut_unique kp hB hbs hw hw')
  · intro u u' b kvh d j b' kvh' d' j' hne hw hw' heq
    unfold writesCache at hw hw'
    obtain ⟨hs, hm, hmod, hb, hkvh, -, -, -⟩ := hw
    obtain ⟨hs', hm', hmod', hb', hkvh', -, -, -⟩ := hw'
    injection heq with hbe hke
    have hbt : kp.blockTables u.1 u.2.2 = kp.blockTables u'.1 u'.2.2 := by
      rw [← hb, ← hb', hbe]
    obtain ⟨hseq, htile⟩ := hinj u.1 u.2.2 u'.1 u'.2.2 hs hs' hm hm' hbt
    have hhead : u.2.1 = u'.2.1 := by
      have e1 := Nat.div_add_mod u.2.1 kp.kvGroups
      have e2 := Nat.div_add_mod u'.2.1 kp.kvGroups
      rw [hmod, ← hkvh] at e1
      rw [hmod', ← hkvh'] at e2
      rw [← hke] at e2
      omega
    exact hne (Prod.ext hseq (Prod.ext hhead htile))

/-- Block-table injectivity holds trivially for the one-block configuration
`exA`: the only working pair is `(0, 0)`. -/
theorem exA_blockTables_inj : ∀ s₁ i₁ s₂ i₂, s₁ < (toKParams exA).batchSize →
    s₂ < (toKParams exA).batchSize →
    i₁ * (toKParams exA).B < seqLen (toKParams exA) s₁ →
    i₂ * (toKParams exA).B < seqLen (toKParams exA) s₂ →
    (toKParams exA).blockTables s₁ i₁ = (toKParams exA).blockTables s₂ i₂ →
    s₁ = s₂ ∧ i₁ = i₂ := by
  intro s₁ i₁ s₂ i₂ h1 h2 h3 h4 _
  have hb : (toKParams exA).batchSize = 1 := rfl
  have e1 : s₁ = 0 := by omega
  have e2 : s₂ = 0 := by omega
  subst e1
  subst e2
  have hl : seqLen (toKParams exA) 0 = 1 := rfl
  have hBc : (toKParams exA).B = 16 := rfl
  rw [hl, hBc] at h3 h4
  exact ⟨rfl, by omega⟩

/-- Witness for C7: units `(0,0,0)` and `(0,1,0)` of `exA` never write the
same output cell. -/
theorem C7_destination_disjointness_witness :
    ¬ (writesOut (toKParams exA) (0, 0, 0) 0 0 0 ∧
        writesOut (toKParams exA) (0, 1, 0) 0 0 0) :=
  (C7_destination_disjointness (toKParams exA) (by decide) (by decide)
    exA_blockTables_inj).1 (0, 0, 0) (0, 1, 0) 0 0 0 (by decide)

/-! ### Claim C4 -/



/-- C4: for a working `(sequence, tile)` unit and kv head `kvh`, the cache
write to that destination is performed by exactly one unit of the grid — the
one whose head is `kvh · KV_GROUPS` (the group's first head, satisfying
`head % KV_GROUPS = 0` and `head / KV_GROUPS = kvh`) — and a hypothetical
write from any sibling head `h'` with `h' / KV_GROUPS = kvh` would have
produced identical cache contents. -/
theorem C4_cache_write_once_per_group (kp : KParams) (st : GState)
    (g1 g3 numKvHeads : ℕ) (hG : 0 < kp.kvGroups)
    (s m kvh d j : ℕ) (hs : s < kp.batchSize) (hsg : s < g1)
    (hm : m * kp.B < seqLen kp s) (hmg : m < g3) (hkvh : kvh < numKvHeads)
    (hd : d < kp.D) (hj : j < kp.B) (hj2 : j < seqLen kp s - m * kp.B) :
    ((s, kvh * kp.kvGroups, m) ∈ gridList g1 (numKvHeads * kp.kvGroups) g3) ∧
    (∀ u ∈ gridList g1 (numKvHeads * kp.kvGroups) g3,
      ((u.1 = s ∧ u.2.2 = m ∧ writesCache kp u (kp.blockTables s m) kvh d j)
        ↔ u = (s, kvh * kp.kvGroups, m))) ∧
    (∀ h', h' / kp.kvGroups = kvh →
      (unitStepAll kp st (s, h', m)).KC = (unitStep kp st (s, kvh * kp.kvGroups, m)).KC ∧
      (unitStepAll kp st (s, h', m)).VC = (unitStep kp st (s, kvh * kp.kvGroups, m)).VC) := by
  have hGmul0 : (kvh * kp.kvGroups) % kp.kvGroups = 0 := Nat.mul_mod_left _ _
  have hGdiv : kvh * kp.kvGroups / kp.kvGroups = kvh := Nat.mul_div_cancel _ hG
  refine ⟨mem_gridList.mpr ⟨hsg, mul_lt_mul_of_pos_right hkvh hG, hmg⟩, ?_, ?_⟩
  · intro u _
    obtain ⟨u1, u2, u3⟩ := u
    constructor
    · rintro ⟨he1, he2, hw⟩
      dsimp only at he1 he2
      subst he1
      subst he2
      unfold writesCache at hw
      dsimp only at hw
      obtain ⟨-, -, hmod, -, hkv, -, -, -⟩ := hw
      have e := Nat.div_add_mod u2 kp.kvGroups
      rw [hmod, ← hkv] at e
      have hcomm : kp.kvGroups * kvh = kvh * kp.kvGroups := Nat.mul_comm _ _
      have hu2 : u2 = kvh * kp.kvGroups := by omega
      subst hu2
      rfl
    · rintro heq
      injection heq with h1 h23
      injection h23 with h2 h3
      subst h1
      subst h2
      subst h3
      refine ⟨rfl, rfl, ?_⟩
      unfold writesCache
      exact ⟨hs, hm, hGmul0, rfl, hGdiv.symm, hd, hj, hj2⟩
  · intro h' hh'
    have hiff : ∀ b kvh' d' j',
        (writesCacheAll kp (s, h', m) b kvh' d' j'
          ↔ writesCache kp (s, kvh * kp.kvGroups, m) b kvh' d' j') := by
      intro b kvh' d' j'
      unfold writesCacheAll writesCache
      dsimp only
      rw [hh', hGdiv]
      constructor
      · rintro ⟨a1, a2, a3, a4, a5, a6, a7⟩
        exact ⟨a1, a2, hGmul0, a3, a4, a5, a6, a7⟩
      · rintro ⟨a1, a2, -, a3, a4, a5, a6, a7⟩
        exact ⟨a1, a2, a3, a4, a5, a6, a7⟩
    constructor
    · funext b kvh' d' j'
      show (if writesCacheAll kp (s, h', m) b kvh' d' j'
          then kp.K (seqStart kp s + m * kp.B + j') kvh' d' else st.KC b kvh' d' j')
        = (if writesCache kp (s, kvh * kp.kvGroups, m) b kvh' d' j'
          then kp.K (seqStart kp s + m * kp.B + j') kvh' d' else st.KC b kvh' d' j')
      by_cases hcase : writesCacheAll kp (s, h', m) b kvh' d' j'
      · rw [if_pos hcase, if_pos ((hiff b kvh' d' j').mp hcase)]
      · rw [if_neg hcase, if_neg (fun hc => hcase ((hiff b kvh' d' j').mpr hc))]
    · funext b kvh' d' j'
      show (if writesCacheAll kp (s, h', m) b kvh' d' j'
          then kp.V (seqStart kp s + m * kp.B + j') kvh' d' else st.VC b kvh' d' j')
        = (if writesCache kp (s, kvh * kp.kvGroups, m) b kvh' d' j'
          then kp.V (seqStart kp s + m * kp.B + j') kvh' d' else st.VC b kvh' d' j')
      by_cases hcase : writesCacheAll kp (s, h', m) b kvh' d' j'
      · rw [if_pos hcase, if_pos ((hiff b kvh' d' j').mp hcase)]
      · rw [if_neg hcase, if_neg (fun hc => hcase ((hiff b kvh' d' j').mpr hc))]

/-- Witness for C4: the representative unit for `(s, tile, kvh) = (0, 0, 0)`
of `exA` is in the grid. -/
theorem C4_cache_write_once_per_group_witness :
    (0, 0 * (toKParams exA).kvGroups, 0) ∈ gridList 1 (1 * (toKParams exA).kvGroups) 1 :=
  (C4_cache_write_once_per_group (toKParams exA) (initState exA) 1 1 1 (by decide)
    0 0 0 0 0 (by decide) (by decide) (by decide) (by decide) (by decide) (by decide)
    (by decide) (by decide)).1

/-! ### Claim C2 -/

/-- C2: cache fidelity. For every sequence `s` and working tile `i`
(`i·B < length(s)`), cache block `block_tables[s][i]` holds, for every kv
head, exactly the key/value vectors of tokens
`[i·B, min ((i+1)·B, length(s)))` copied from the packed `K`/`V` inputs;
slots of that block at positions at or beyond `length(s) - i·B` keep their
prior contents; and every cache block not named by a working
`(sequence, tile)` pair keeps its prior contents. Stated under the block
table well-formedness precondition that distinct working `(sequence, tile)`
pairs get distinct physical blocks. -/
theorem C2_cache_fidelity (a : Args) (maxL s i : ℕ)
    (hc : checks a)
    (hmax : maxSeqLenOf a.maxSeqLenHint a.ctxLens = some maxL)
    (hHpos : 0 < a.numHeads)
    (hs : s < numSeqs a) (hi : i * a.blockSize < seqLen (toKParams a) s)
    (hiL : seqLen (toKParams a) s ≤ maxL)
    (hinj : ∀ s₁ i₁ s₂ i₂, s₁ < numSeqs a → s₂ < numSeqs a →
      i₁ * a.blockSize < seqLen (toKParams a) s₁ →
      i₂ * a.blockSize < seqLen (toKParams a) s₂ →
      a.blockTables s₁ i₁ = a.blockTables s₂ i₂ → s₁ = s₂ ∧ i₁ = i₂) :
    context_attention_unpadded a = some (runContext a maxL) ∧
    (∀ kvh d j, kvh < a.numKvHeads → d < a.headDimK → j < a.blockSize →
      i * a.blockSize + j < seqLen (toKParams a) s →
      (runContext a maxL).KC (a.blockTables s i) kvh d j
          = a.K (seqStart (toKParams a) s + i * a.blockSize + j) kvh d ∧
      (runContext a maxL).VC (a.blockTables s i) kvh d j
          = a.V (seqStart (toKParams a) s + i * a.blockSize + j) kvh d) ∧
    (∀ kvh d j, seqLen (toKParams a) s ≤ i * a.blockSize + j →
      (runContext a maxL).KC (a.blockTables s i) kvh d j
          = a.KC (a.blockTables s i) kvh d j ∧
      (runContext a maxL).VC (a.blockTables s i) kvh d j
          = a.VC (a.blockTables s i) kvh d j) ∧
    (∀ b, (∀ s' i', s' < numSeqs a → i' * a.blockSize < seqLen (toKParams a) s' →
        a.blockTables s' i' ≠ b) →
      ∀ kvh d j, (runContext a maxL).KC b kvh d j = a.KC b kvh d j ∧
        (runContext a maxL).VC b kvh d j = a.VC b kvh d j) := by
  have hc' := hc
  obtain ⟨hdims, hdmem, htok, hcache, hlen, ⟨hkvpos, hmod⟩, hbsmem⟩ := hc'
  have hB : 0 < a.blockSize := by
    simp only [List.mem_cons, List.not_mem_nil, or_false] at hbsmem
    omega
  have e := Nat.div_add_mod a.numHeads a.numKvHeads
  rw [hmod] at e
  have hGpos : 0 < a.numHeads / a.numKvHeads := by
    by_contra h0
    have h00 : a.numHeads / a.numKvHeads = 0 := Nat.le_zero.mp (Nat.not_lt.mp h0)
    rw [h00, Nat.mul_zero] at e
    omega
  refine ⟨context_eq_some a maxL hc hmax, ?_, ?_, ?_⟩
  · -- written slots
    intro kvh d j hkvh hd hjB hjlen
    have hw₀ : writesCache (toKParams a) (s, kvh * (a.numHeads / a.numKvHeads), i)
        (a.blockTables s i) kvh d j := by
      unfold writesCache
      dsimp only
      refine ⟨hs, hi, Nat.mul_mod_left _ _, rfl,
        (Nat.mul_div_cancel _ hGpos).symm, hd, hjB, ?_⟩
      have hx : j < seqLen (toKParams a) s - i * a.blockSize := by omega
      exact hx
    have hmem : (s, kvh * (a.numHeads / a.numKvHeads), i)
        ∈ gridList (gridOf a maxL).1 (gridOf a maxL).2.1 (gridOf a maxL).2.2 := by
      refine mem_gridList.mpr ⟨?_, ?_, ?_⟩
      · simp only [gridOf_1]
        exact lt_of_lt_of_le hs (le_nextPow2 _)
      · simp only [gridOf_21]
        calc kvh * (a.numHeads / a.numKvHeads)
            < a.numKvHeads * (a.numHeads / a.numKvHeads) :=
              mul_lt_mul_of_pos_right hkvh hGpos
          _ = a.numHeads := by omega
      · simp only [gridOf_22]
        have hiB : i * a.blockSize < maxL := lt_of_lt_of_le hi hiL
        have hieq : i = i * a.blockSize / a.blockSize := (Nat.mul_div_cancel i hB).symm
        rw [hieq]
        exact div_lt_cdiv hB hiB
    have huniq : ∀ u ∈ gridList (gridOf a maxL).1 (gridOf a maxL).2.1 (gridOf a maxL).2.2,
        writesCache (toKParams a) u (a.blockTables s i) kvh d j →
        u = (s, kvh * (a.numHeads / a.numKvHeads), i) := by
      intro u _ hw
      obtain ⟨u1, u2, u3⟩ := u
      unfold writesCache at hw
      dsimp only at hw
      obtain ⟨hu1b, hu3B, humod, hbt, hkvq, -, -, -⟩ := hw
      simp only [toKParams_batchSize, toKParams_B, toKParams_blockTables,
        toKParams_kvGroups] at hu1b hu3B humod hbt hkvq
      obtain ⟨hse, hie⟩ := hinj u1 u3 s i hu1b hs hu3B hi hbt.symm
      subst hse
      subst hie
      have e2 := Nat.div_add_mod u2 (a.numHeads / a.numKvHeads)
      rw [humod, ← hkvq] at e2
      have hcomm : a.numHeads / a.numKvHeads * kvh = kvh * (a.numHeads / a.numKvHeads) :=
        Nat.mul_comm _ _
      have hu2 : u2 = kvh * (a.numHeads / a.numKvHeads) := by omega
      subst hu2
      rfl
    constructor
    · have hval := runUnits_KC_unique (toKParams a)
        (gridList (gridOf a maxL).1 (gridOf a maxL).2.1 (gridOf a maxL).2.2)
        (initState a) (a.blockTables s i) kvh d j
        (s, kvh * (a.numHeads / a.numKvHeads), i) hmem hw₀ huniq
      simpa using hval
    · have hval := runUnits_VC_unique (toKParams a)
        (gridList (gridOf a maxL).1 (gridOf a maxL).2.1 (gridOf a maxL).2.2)
        (initState a) (a.blockTables s i) kvh d j
        (s, kvh * (a.numHeads / a.numKvHeads), i) hmem hw₀ huniq
      simpa using hval
  · -- slots beyond the sequence length: untouched
    intro kvh d j hbeyond
    have hnone : ∀ u ∈ gridList (gridOf a maxL).1 (gridOf a maxL).2.1 (gridOf a maxL).2.2,
        ¬ writesCache (toKParams a) u (a.blockTables s i) kvh d j := by
      intro u _ hw
      obtain ⟨u1, u2, u3⟩ := u
      unfold writesCache at hw
      dsimp only at hw
      obtain ⟨hu1b, hu3B, -, hbt, -, -, -, hjlt⟩ := hw
      simp only [toKParams_batchSize, toKParams_B, toKParams_blockTables,
        toKParams_ctxLens] at hu1b hu3B hbt hjlt
      obtain ⟨hse, hie⟩ := hinj u1 u3 s i hu1b hs hu3B hi hbt.symm
      subst hse
      subst hie
      omega
    exact ⟨by simpa using runUnits_KC_frame (toKParams a) _ (initState a) _ kvh d j hnone,
      by simpa using runUnits_VC_frame (toKParams a) _ (initState a) _ kvh d j hnone⟩
  · -- unnamed blocks: untouched
    intro b hb kvh d j
    have hnone : ∀ u ∈ gridList (gridOf a maxL).1 (gridOf a maxL).2.1 (gridOf a maxL).2.2,
        ¬ writesCache (toKParams a) u b kvh d j := by
      intro u _ hw
      obtain ⟨u1, u2, u3⟩ := u
      unfold writesCache at hw
      dsimp only at hw
      obtain ⟨hu1b, hu3B, -, hbt, -, -, -, -⟩ := hw
      simp only [toKParams_batchSize, toKParams_B, toKParams_blockTables] at hu1b hu3B hbt
      exact hb u1 u3 hu1b hu3B hbt.symm
    exact ⟨by simpa using runUnits_KC_frame (toKParams a) _ (initState a) b kvh d j hnone,
      by simpa using runUnits_VC_frame (toKParams a) _ (initState a) b kvh d j hnone⟩

/-- Witness for C2: slot 1 of sequence 0's block in `exA` (past its length 1)
keeps its prior contents. -/
theorem C2_cache_fidelity_witness :
    (runContext exA 1).KC (exA.blockTables 0 0) 0 0 1
        = exA.KC (exA.blockTables 0 0) 0 0 1 ∧
    (runContext exA 1).VC (exA.blockTables 0 0) 0 0 1
        = exA.VC (exA.blockTables 0 0) 0 0 1 :=
  (C2_cache_fidelity exA 1 0 0 (by decide) (by decide) (by decide) (by decide)
    (by decide) (by decide)
    (fun s₁ i₁ s₂ i₂ h1 h2 h3 h4 h5 => exA_blockTables_inj s₁ i₁ s₂ i₂ h1 h2 h3 h4 h5)).2.2.1
    0 0 1 (by decide)

/-! ### Claim C10 -/

/-- An output cell of a real query position stays at its initial zero whenever
its head, dimension, or tile index falls outside the dispatched grid. -/
theorem runContext_O_unwritten (a : Args) (maxL s p h d : ℕ)
    (hbs : numSeqs a ≤ a.ctxLens.length)
    (hs : s < numSeqs a) (hp : p < seqLen (toKParams a) s)
    (hcase : a.numHeads ≤ h ∨ a.headDimK ≤ d ∨ cdiv maxL a.blockSize ≤ p / a.blockSize) :
    (runContext a maxL).O (seqStart (toKParams a) s + p) h d = 0 := by
  have hnone : ∀ u ∈ gridList (gridOf a maxL).1 (gridOf a maxL).2.1 (gridOf a maxL).2.2,
      ¬ writesOut (toKParams a) u (seqStart (toKParams a) s + p) h d := by
    intro u hu hw
    obtain ⟨hug1, hug2, hug3⟩ := mem_gridList.mp hu
    obtain ⟨u1, u2, u3⟩ := u
    unfold writesOut at hw
    dsimp only at hw hug1 hug2 hug3
    obtain ⟨hu1b, hu3B, hhead, hdD, hlo, hhi⟩ := hw
    simp only [gridOf_1, gridOf_21, gridOf_22] at hug1 hug2 hug3
    simp only [toKParams_batchSize, toKParams_B, toKParams_D] at hu1b hu3B hdD hlo hhi
    have hnum : numSeqs a = a.btRows := rfl
    have hu1s : u1 = s := by
      by_contra hne
      have hlen : u1 < (toKParams a).ctxLens.length := by
        simp only [toKParams_ctxLens]
        omega
      have hslen : s < (toKParams a).ctxLens.length := by
        simp only [toKParams_ctxLens]
        omega
      have hp1 : (seqStart (toKParams a) s + p) - seqStart (toKParams a) u1
          < seqLen (toKParams a) u1 := by omega
      have hneq := span_ne (toKParams a) hne hlen hslen hp1 hp
      omega
    subst hu1s
    have hth : u3 = p / a.blockSize := by
      have e1 : p / a.blockSize = u3 := Nat.div_eq_of_lt_le (by omega) (by omega)
      omega
    subst hth
    rcases hcase with hx | hx | hx
    · omega
    · omega
    · omega
  unfold runContext
  rw [runUnits_O_frame (toKParams a) _ (initState a) _ h d hnone]
  rfl

/-- C10: a caller-supplied `max_seq_len_in_b` hint smaller than the true batch
maximum raises no error and silently truncates the work: the tile dimension of
the grid is `⌈hint / block_size⌉`, output rows at query positions at or
beyond `⌈hint / block_size⌉ · block_size` stay the zeros of the freshly
zero-initialized output tensor, and cache blocks named only by undispatched
tiles keep their prior contents. -/
theorem C10_small_hint_truncates (a : Args) (L : ℕ)
    (hc : checks a) (hhint : a.maxSeqLenHint = some L)
    (hsmall : L < a.ctxLens.foldr max 0) :
    context_attention_unpadded a = some (runContext a L) ∧
    (gridOf a L).2.2 = cdiv L a.blockSize ∧
    (∀ s p h d, s < numSeqs a → p < seqLen (toKParams a) s →
      cdiv L a.blockSize * a.blockSize ≤ p →
      (runContext a L).O (seqStart (toKParams a) s + p) h d = 0) ∧
    (∀ b, (∀ s' i', s' < numSeqs a → i' < cdiv L a.blockSize →
        i' * a.blockSize < seqLen (toKParams a) s' → a.blockTables s' i' ≠ b) →
      ∀ kvh d j, (runContext a L).KC b kvh d j = a.KC b kvh d j ∧
        (runContext a L).VC b kvh d j = a.VC b kvh d j) := by
  have hc' := hc
  obtain ⟨hdims, hdmem, htok, hcache, hlen, ⟨hkvpos, hmod⟩, hbsmem⟩ := hc'
  have hB : 0 < a.blockSize := by
    simp only [List.mem_cons, List.not_mem_nil, or_false] at hbsmem
    omega
  have hbs : numSeqs a ≤ a.ctxLens.length := by
    unfold numSeqs
    omega
  have hmax : maxSeqLenOf a.maxSeqLenHint a.ctxLens = some L := by
    rw [hhint]
    rfl
  refine ⟨context_eq_some a L hc hmax, rfl, ?_, ?_⟩
  · intro s p h d hs hp hcut
    exact runContext_O_unwritten a L s p h d hbs hs hp
      (Or.inr (Or.inr ((Nat.le_div_iff_mul_le hB).mpr hcut)))
  · intro b hb kvh d j
    have hnone : ∀ u ∈ gridList (gridOf a L).1 (gridOf a L).2.1 (gridOf a L).2.2,
        ¬ writesCache (toKParams a) u b kvh d j := by
      intro u hu hw
      obtain ⟨hug1, hug2, hug3⟩ := mem_gridList.mp hu
      obtain ⟨u1, u2, u3⟩ := u
      unfold writesCache at hw
      dsimp only at hw hug3
      obtain ⟨hu1b, hu3B, -, hbt, -, -, -, -⟩ := hw
      simp only [gridOf_22] at hug3
      simp only [toKParams_batchSize, toKParams_B, toKParams_blockTables] at hu1b hu3B hbt
      exact hb u1 u3 hu1b hug3 hu3B hbt.symm
    exact ⟨by simpa using runUnits_KC_frame (toKParams a) _ (initState a) b kvh d j hnone,
      by simpa using runUnits_VC_frame (toKParams a) _ (initState a) b kvh d j hnone⟩


/-- Witness for C10: with hint 0, the output row of query position 0 (which is
below the sequence length 1) stays zero. -/
theorem C10_small_hint_truncates_witness :
    (runContext exAHint0 0).O (seqStart (toKParams exAHint0) 0 + 0) 0 0 = 0 :=
  (C10_small_hint_truncates exAHint0 0 (by decide) (by decide) (by decide)).2.2.1
    0 0 0 0 (by decide) (by decide) (by decide)

/-! ### Claim C3 -/

theorem RowState_ext (x y : RowState) (h1 : x.mi = y.mi) (h2 : x.li = y.li)
    (h3 : x.acc = y.acc) : x = y := by
  cases x
  cases y
  dsimp only at h1 h2 h3
  subst h1
  subst h2
  subst h3
  rfl

/-- The raw score of a visible pair depends only on the query row `p` and key
column `q` of the same sequence. -/
theorem score_congr (kp kp' : KParams) (s h p q : ℕ)
    (hsm : kp.smScale = kp'.smScale) (hD : kp.D = kp'.D)
    (hlen : seqLen kp s = seqLen kp' s) (hst : seqStart kp s = seqStart kp' s)
    (hG : kp.kvGroups = kp'.kvGroups)
    (hQ : ∀ d, kp.Q (seqStart kp s + p) h d = kp'.Q (seqStart kp s + p) h d)
    (hK : ∀ d, kp.K (seqStart kp s + q) (h / kp.kvGroups) d
        = kp'.K (seqStart kp s + q) (h / kp'.kvGroups) d) :
    score kp s h p q = score kp' s h p q := by
  unfold score dotD qRow kCol
  rw [← hsm, ← hD, ← hlen, ← hst, ← hG]
  congr 1
  refine Finset.sum_congr rfl fun d' _ => ?_
  by_cases h1 : p < seqLen kp s
  · by_cases h2 : q < seqLen kp s
    · rw [if_pos h1, if_pos h1, if_pos h2, if_pos h2, hQ d', hK d', ← hG]
    · rw [if_neg h2, if_neg h2, mul_zero, mul_zero]
  · rw [if_neg h1, if_neg h1, zero_mul, zero_mul]

theorem vRow_congr (kp kp' : KParams) (s h q d : ℕ)
    (hlen : seqLen kp s = seqLen kp' s) (hst : seqStart kp s = seqStart kp' s)
    (hG : kp.kvGroups = kp'.kvGroups)
    (hV : kp.V (seqStart kp s + q) (h / kp.kvGroups) d
        = kp'.V (seqStart kp s + q) (h / kp'.kvGroups) d) :
    vRow kp s (h / kp.kvGroups) q d = vRow kp' s (h / kp'.kvGroups) q d := by
  unfold vRow
  rw [← hlen, ← hst, ← hG]
  by_cases h1 : q < seqLen kp s
  · rw [if_pos h1, if_pos h1]
    rw [← hG] at hV
    exact hV
  · rw [if_neg h1, if_neg h1]

/-- One fold step only reads masked scores and the value vectors of visible
columns; masked columns contribute `exp (-∞) = 0` regardless of `V`. -/
theorem rowStep_congr (kp kp' : KParams) (s h p : ℕ)
    (hB : kp.B = kp'.B)
    (hmask : ∀ q, maskedScore kp s h p q = maskedScore kp' s h p q)
    (hV : ∀ q, q ≤ p → ∀ d, vRow kp s (h / kp.kvGroups) q d
        = vRow kp' s (h / kp'.kvGroups) q d)
    (st : RowState) (n : ℕ) :
    rowStep kp s h p st n = rowStep kp' s h p st n := by
  have htm : ((Finset.range kp'.B).sup fun j => maskedScore kp' s h p (n * kp'.B + j))
      = ((Finset.range kp.B).sup fun j => maskedScore kp s h p (n * kp.B + j)) := by
    rw [← hB]
    exact Finset.sup_congr rfl fun j _ => (hmask _).symm
  apply RowState_ext
  · rw [rowStep_mi, rowStep_mi, htm]
  · rw [rowStep_li, rowStep_li, rowStep_mi, rowStep_mi, htm, ← hB]
    congr 1
    exact Finset.sum_congr rfl fun j _ => by rw [hmask]
  · funext d
    rw [rowStep_acc, rowStep_acc, rowStep_mi, rowStep_mi, htm, ← hB]
    congr 1
    refine Finset.sum_congr rfl fun j _ => ?_
    by_cases hvis : n * kp.B + j ≤ p
    · rw [hmask, hV _ hvis d]
    · have hm1 : maskedScore kp s h p (n * kp.B + j) = ⊥ := by
        unfold maskedScore
        rw [if_neg hvis]
      have hm2 : maskedScore kp' s h p (n * kp.B + j) = ⊥ := by
        unfold maskedScore
        rw [if_neg hvis]
      rw [hm1, hm2, subW_bot_left, expW_bot, zero_mul, zero_mul]

theorem rowFold_congr (kp kp' : KParams) (s h p : ℕ)
    (hB : kp.B = kp'.B)
    (hmask : ∀ q, maskedScore kp s h p q = maskedScore kp' s h p q)
    (hV : ∀ q, q ≤ p → ∀ d, vRow kp s (h / kp.kvGroups) q d
        = vRow kp' s (h / kp'.kvGroups) q d)
    (m : ℕ) :
    rowFold kp s h m p = rowFold kp' s h m p := by
  have hfold : ∀ (l : List ℕ) (st : RowState),
      l.foldl (rowStep kp s h p) st = l.foldl (rowStep kp' s h p) st := by
    intro l
    induction l with
    | nil => intro st; rfl
    | cons a l ih =>
      intro st
      show l.foldl (rowStep kp s h p) (rowStep kp s h p st a) = _
      rw [rowStep_congr kp kp' s h p hB hmask hV st a]
      exact ih _
  exact hfold _ _

theorem outRow_congr (kp kp' : KParams) (s h p : ℕ)
    (hB : kp.B = kp'.B)
    (hmask : ∀ q, maskedScore kp s h p q = maskedScore kp' s h p q)
    (hV : ∀ q, q ≤ p → ∀ d, vRow kp s (h / kp.kvGroups) q d
        = vRow kp' s (h / kp'.kvGroups) q d)
    (m d : ℕ) :
    outRow kp s h m p d = outRow kp' s h m p d := by
  unfold outRow
  rw [rowFold_congr kp kp' s h p hB hmask hV m]

/-- C3: causal noninterference. If two invocations differ only in the Q/K/V
token vectors at positions strictly greater than `p` within sequence `s`
(all other arguments equal), then the output rows at position `p` coincide. -/
theorem C3_causal_noninterference (a : Args) (Q' K' V' : ℕ → ℕ → ℕ → ℝ)
    (maxL s p : ℕ) (hc : checks a)
    (hmax : maxSeqLenOf a.maxSeqLenHint a.ctxLens = some maxL)
    (hs : s < numSeqs a) (hp : p < seqLen (toKParams a) s)
    (hagree : ∀ t, (∀ q, p < q → q < seqLen (toKParams a) s →
        t ≠ seqStart (toKParams a) s + q) →
      ∀ hh d, a.Q t hh d = Q' t hh d ∧ a.K t hh d = K' t hh d ∧ a.V t hh d = V' t hh d) :
    context_attention_unpadded a = some (runContext a maxL) ∧
    context_attention_unpadded { a with Q := Q', K := K', V := V' }
        = some (runContext { a with Q := Q', K := K', V := V' } maxL) ∧
    ∀ h d, (runContext a maxL).O (seqStart (toKParams a) s + p) h d
        = (runContext { a with Q := Q', K := K', V := V' } maxL).O
            (seqStart (toKParams a) s + p) h d := by
  have hc' := hc
  obtain ⟨hdims, hdmem, htok, hcache, hlen, ⟨hkvpos, hmod⟩, hbsmem⟩ := hc'
  have hB : 0 < a.blockSize := by
    simp only [List.mem_cons, List.not_mem_nil, or_false] at hbsmem
    omega
  have hbs : numSeqs a ≤ a.ctxLens.length := by
    unfold numSeqs
    omega
  have hbsK : (toKParams a).batchSize ≤ (toKParams a).ctxLens.length := hbs
  have hc2 : checks { a with Q := Q', K := K', V := V' } := hc
  have hmax2 : maxSeqLenOf ({ a with Q := Q', K := K', V := V' }).maxSeqLenHint
      ({ a with Q := Q', K := K', V := V' }).ctxLens = some maxL := hmax
  refine ⟨context_eq_some a maxL hc hmax, context_eq_some _ maxL hc2 hmax2, ?_⟩
  intro h d
  have hnotbad : ∀ q, q ≤ p →
      (∀ q2, p < q2 → q2 < seqLen (toKParams a) s →
        seqStart (toKParams a) s + q ≠ seqStart (toKParams a) s + q2) := by
    intro q hq q2 hgt _ heq
    omega
  have hmask : ∀ q, maskedScore (toKParams a) s h p q
      = maskedScore (toKParams { a with Q := Q', K := K', V := V' }) s h p q := by
    intro q
    unfold maskedScore
    by_cases hq : q ≤ p
    · rw [if_pos hq, if_pos hq]
      exact congrArg _ (score_congr (toKParams a)
        (toKParams { a with Q := Q', K := K', V := V' }) s h p q rfl rfl rfl rfl rfl
        (fun d' => (hagree _ (hnotbad p (le_refl p)) h d').1)
        (fun d' => (hagree _ (hnotbad q hq) (h / (toKParams a).kvGroups) d').2.1))
    · rw [if_neg hq, if_neg hq]
  have hVc : ∀ q, q ≤ p → ∀ d',
      vRow (toKParams a) s (h / (toKParams a).kvGroups) q d'
        = vRow (toKParams { a with Q := Q', K := K', V := V' }) s
            (h / (toKParams { a with Q := Q', K := K', V := V' }).kvGroups) q d' := by
    intro q hq d'
    exact vRow_congr (toKParams a) (toKParams { a with Q := Q', K := K', V := V' })
      s h q d' rfl rfl rfl
      ((hagree _ (hnotbad q hq) (h / (toKParams a).kvGroups) d').2.2)
  by_cases hcond : h < a.numHeads ∧ d < a.headDimK ∧ p / a.blockSize < cdiv maxL a.blockSize
  · obtain ⟨hh, hd, hm⟩ := hcond
    have h1 : (runContext a maxL).O (seqStart (toKParams a) s + p) h d
        = outRow (toKParams a) s h (p / (toKParams a).B) p d := by
      unfold runContext
      exact runUnits_grid_O (toKParams a) _ _ _ (initState a) hB hbsK s p h d hs
        (by simp only [gridOf_1]; exact lt_of_lt_of_le hs (le_nextPow2 _))
        hp
        (by simp only [gridOf_21]; exact hh)
        (by simp only [gridOf_22, toKParams_B]; exact hm)
        hd
    have h2 : (runContext { a with Q := Q', K := K', V := V' } maxL).O
        (seqStart (toKParams a) s + p) h d
        = outRow (toKParams { a with Q := Q', K := K', V := V' }) s h
            (p / (toKParams { a with Q := Q', K := K', V := V' }).B) p d := by
      unfold runContext
      exact runUnits_grid_O (toKParams { a with Q := Q', K := K', V := V' }) _ _ _
        (initState { a with Q := Q', K := K', V := V' }) hB hbsK s p h d hs
        (by simp only [gridOf_1]; exact lt_of_lt_of_le hs (le_nextPow2 _))
        hp
        (by simp only [gridOf_21]; exact hh)
        (by simp only [gridOf_22, toKParams_B]; exact hm)
        hd
    rw [h1, h2]
    exact outRow_congr (toKParams a) (toKParams { a with Q := Q', K := K', V := V' })
      s h p rfl hmask hVc (p / (toKParams a).B) d
  · have hcase : a.numHeads ≤ h ∨ a.headDimK ≤ d ∨ cdiv maxL a.blockSize ≤ p / a.blockSize := by
      by_contra hno
      push_neg at hno
      exact hcond ⟨hno.1, hno.2.1, hno.2.2⟩
    have e1 : (runContext a maxL).O (seqStart (toKParams a) s + p) h d = 0 :=
      runContext_O_unwritten a maxL s p h d hbs hs hp hcase
    have e2 : (runContext { a with Q := Q', K := K', V := V' } maxL).O
        (seqStart (toKParams a) s + p) h d = 0 :=
      runContext_O_unwritten { a with Q := Q', K := K', V := V' } maxL s p h d hbs hs hp hcase
    rw [e1, e2]



/-- Witness for C3: altering token 1 (position 1 > 0 of sequence 0) leaves the
output row at position 0 unchanged. -/
theorem C3_causal_noninterference_witness :
    (runContext exC 1).O (seqStart (toKParams exC) 0 + 0) 0 0
      = (runContext { exC with Q := exCalt, K := exCalt, V := exCalt } 1).O
          (seqStart (toKParams exC) 0 + 0) 0 0 :=
  (C3_causal_noninterference exC exCalt exCalt exCalt 1 0 0 (by decide) (by decide)
    (by decide) (by decide)
    (fun t hcond hh d => by
      have ht : t ≠ seqStart (toKParams exC) 0 + 1 :=
        hcond 1 (by decide) (by decide)
      have hst : seqStart (toKParams exC) 0 + 1 = 1 := by decide
      have ht1 : ¬ (t = 1) := by
        rw [hst] at ht
        exact ht
      refine ⟨?_, ?_, ?_⟩ <;>
        · show (0 : ℝ) = exCalt t hh d
          unfold exCalt
          rw [if_neg ht1])).2.2 0 0

end ContextAttn
